import Mathlib

/-!
Verification development for the controlledburn scanline rasterizer
(`src/scanline_burn.cpp`, `src/analytical_coverage.h`, `src/dense_to_sparse.h`).

The C++ code is shallowly embedded: `double`/`float` arithmetic is modelled
by exact rationals `ℚ`, mutable accumulators by explicit state passing, and
the (in principle unbounded) ring walk by fuel-indexed recursion returning
`Option`.  Grid/Box primitives from the external exactextract headers
(`box.h`, `grid.h`, `perimeter_distance.h`, `traversal_areas.h`) are not part
of the repository sources; they are modelled from the specification (§4.1,
§4.3, §6.3) and are marked `Modelled from the spec:` in their doc comments.
-/

namespace ControlledBurn

/-- A 2-D point (exactextract::Coordinate); C++ doubles modelled as `ℚ`. -/
structure Coordinate where
  x : ℚ
  y : ℚ
deriving DecidableEq, Repr

instance : Inhabited Coordinate := ⟨⟨0, 0⟩⟩

/-- Modelled from the spec: `Box`, an axis-aligned rectangle (§4.1, exactextract box.h,
which is not part of this repository's sources). -/
structure Box where
  xmin : ℚ
  ymin : ℚ
  xmax : ℚ
  ymax : ℚ
deriving DecidableEq, Repr

def Box.width (b : Box) : ℚ := b.xmax - b.xmin

def Box.height (b : Box) : ℚ := b.ymax - b.ymin

def Box.area (b : Box) : ℚ := b.width * b.height

/-- Modelled from the spec: perimeter `2(h+w)` (§4.2). -/
def Box.perimeter (b : Box) : ℚ := 2 * (b.height + b.width)

/-- Cell boundary tag (exactextract side.h). -/
inductive Side where
  | NONE
  | LEFT
  | RIGHT
  | TOP
  | BOTTOM
deriving DecidableEq, Repr

/-- Modelled from the spec: `Box::contains` is closed, boundary included (§4.1). -/
def Box.containsPt (b : Box) (p : Coordinate) : Prop :=
  b.xmin ≤ p.x ∧ p.x ≤ b.xmax ∧ b.ymin ≤ p.y ∧ p.y ≤ b.ymax

instance (b : Box) (p : Coordinate) : Decidable (b.containsPt p) := by
  unfold Box.containsPt; infer_instance

/-- Modelled from the spec: `Box::strictly_contains` excludes the boundary (§4.1). -/
def Box.strictlyContainsPt (b : Box) (p : Coordinate) : Prop :=
  b.xmin < p.x ∧ p.x < b.xmax ∧ b.ymin < p.y ∧ p.y < b.ymax

instance (b : Box) (p : Coordinate) : Decidable (b.strictlyContainsPt p) := by
  unfold Box.strictlyContainsPt; infer_instance

/-- Modelled from the spec: `Box::side(p)` returns the side whose closed segment
contains `p`, else NONE; corner tie-break gives TOP and BOTTOM priority over
LEFT and RIGHT (§4.1). -/
def Box.sideOf (b : Box) (p : Coordinate) : Side :=
  if p.y = b.ymax ∧ b.xmin ≤ p.x ∧ p.x ≤ b.xmax then Side.TOP
  else if p.y = b.ymin ∧ b.xmin ≤ p.x ∧ p.x ≤ b.xmax then Side.BOTTOM
  else if p.x = b.xmin ∧ b.ymin ≤ p.y ∧ p.y ≤ b.ymax then Side.LEFT
  else if p.x = b.xmax ∧ b.ymin ≤ p.y ∧ p.y ≤ b.ymax then Side.RIGHT
  else Side.NONE

/-- Segment/box boundary intersection record (exactextract crossing.h). -/
structure Crossing where
  coord : Coordinate
  side : Side
deriving DecidableEq, Repr

/-- Modelled from the spec: `Box::crossing(a, b)` — for a segment from `a`
(inside or on the boundary) heading toward `b` (outside), the first
intersection of `[a,b]` with the box boundary (§4.1).  For each boundary
plane that `b` lies beyond, the crossing parameter along the segment is
computed; the smallest parameter wins, ties resolved in the order
TOP, BOTTOM, LEFT, RIGHT (matching the side tie-break priority). -/
def Box.crossingOf (b : Box) (a c : Coordinate) : Crossing :=
  let dxv := c.x - a.x
  let dyv := c.y - a.y
  let cands : List (Side × ℚ) :=
    (if c.y > b.ymax ∧ dyv ≠ 0 then [(Side.TOP, (b.ymax - a.y) / dyv)] else []) ++
    (if c.y < b.ymin ∧ dyv ≠ 0 then [(Side.BOTTOM, (b.ymin - a.y) / dyv)] else []) ++
    (if c.x < b.xmin ∧ dxv ≠ 0 then [(Side.LEFT, (b.xmin - a.x) / dxv)] else []) ++
    (if c.x > b.xmax ∧ dxv ≠ 0 then [(Side.RIGHT, (b.xmax - a.x) / dxv)] else [])
  match cands with
  | [] => ⟨c, Side.NONE⟩
  | c0 :: rest =>
    let best := rest.foldl (fun acc q => if q.2 < acc.2 then q else acc) c0
    ⟨⟨a.x + best.2 * dxv, a.y + best.2 * dyv⟩, best.1⟩

/-- Modelled from the spec: perimeter distance of a boundary point, measured
from the bottom-left corner with the corner convention BL=0, TL=h, TR=h+w,
BR=2h+w (§4.2, glossary; exactextract perimeter_distance.h is not part of
this repository's sources).  Returns 0 for points not on the boundary
(the code only calls it on boundary points). -/
def perimeterDistance (b : Box) (p : Coordinate) : ℚ :=
  if p.x = b.xmin then p.y - b.ymin
  else if p.y = b.ymax then b.height + (p.x - b.xmin)
  else if p.x = b.xmax then b.height + b.width + (b.ymax - p.y)
  else if p.y = b.ymin then 2 * b.height + b.width + (b.xmax - p.x)
  else 0

/-- Inner sum of the shoelace loop of `polygon_signed_area`
(analytical_coverage.h lines 34-41): walking `(prev, cur, next :: rest)`
accumulates `(cur.x - x0) * (prev.y - next.y)` for `i = 1 .. n-2`. -/
def shoelaceAux (x0 : ℚ) : Coordinate → Coordinate → List Coordinate → ℚ
  | _, _, [] => 0
  | prev, cur, next :: rest => (cur.x - x0) * (prev.y - next.y) + shoelaceAux x0 cur next rest

/-- `controlledburn::polygon_signed_area` (analytical_coverage.h):
shoelace formula with a subtract-first origin `x0 = ring[0].x`. -/
def polygonSignedArea (ring : List Coordinate) : ℚ :=
  if ring.length < 3 then 0
  else
    match ring with
    | r0 :: r1 :: rest => shoelaceAux r0.x r0 r1 rest / 2
    | _ => 0

/-- The tolerance `1e-12` used in `analytical_covered_fraction`. -/
def eps12 : ℚ := 1 / 10 ^ 12

/-- The four corners of a box tagged with their perimeter distances
(BL=0, TL=h, TR=h+w, BR=2h+w), as enumerated in `analytical_covered_fraction`. -/
def cornerTags (b : Box) : List (Coordinate × ℚ) :=
  [(⟨b.xmin, b.ymin⟩, 0), (⟨b.xmin, b.ymax⟩, b.height),
   (⟨b.xmax, b.ymax⟩, b.height + b.width), (⟨b.xmax, b.ymin⟩, 2 * b.height + b.width)]

/-- CW distance from `exitPd` back to perimeter position `pd`
(`cw_from_exit` in analytical_coverage.h). -/
def cwFromExit (perim exitPd pd : ℚ) : ℚ :=
  let d := exitPd - pd
  if d < 0 then d + perim else d

/-- Comparison on corner tags by CW distance, used for the corner sort. -/
def tagLe (p q : Coordinate × ℚ) : Prop := p.2 ≤ q.2

instance : DecidableRel tagLe := fun p q => inferInstanceAs (Decidable (p.2 ≤ q.2))

instance : IsTotal (Coordinate × ℚ) tagLe := ⟨fun p q => le_total p.2 q.2⟩

instance : IsTrans (Coordinate × ℚ) tagLe := ⟨fun _ _ _ h1 h2 => le_trans h1 h2⟩

/-- The non-degenerate branch of `analytical_covered_fraction` once the CW arc
length is known: collect the corners whose CW distance from the exit lies in
`(1e-12, arc - 1e-12)`, sort them by CW distance, append them to the traversal
path, close with the first point and return `|shoelace| / cell_area`
(analytical_coverage.h lines 94-150). -/
def acfArcCase (b : Box) (coords : List Coordinate) (exitPd arc : ℚ) : ℚ :=
  let perim := b.perimeter
  let tagged := (cornerTags b).map (fun p => (p.1, cwFromExit perim exitPd p.2))
  let inArc := tagged.filter (fun p => decide (eps12 < p.2 ∧ p.2 < arc - eps12))
  let sortedArc := inArc.insertionSort tagLe
  let polygon := coords ++ sortedArc.map Prod.fst
  let closed := polygon ++ [polygon.headI]
  |polygonSignedArea closed| / b.area

/-- `controlledburn::analytical_covered_fraction` (analytical_coverage.h):
coverage fraction of the cell lying to the left of a single CCW traversal.
The two unused `Side` parameters of the C++ signature are dropped. -/
def analyticalCoveredFraction (b : Box) (coords : List Coordinate) : ℚ :=
  if b.area ≤ 0 then 0
  else if coords.length < 2 then 0
  else
    let perim := b.perimeter
    let exitPd := perimeterDistance b coords.getLastI
    let entryPd := perimeterDistance b coords.headI
    if exitPd > entryPd + eps12 then acfArcCase b coords exitPd (exitPd - entryPd)
    else if entryPd > exitPd + eps12 then
      acfArcCase b coords exitPd (perim - entryPd + exitPd)
    else
      let poly := if coords.headI = coords.getLastI then coords else coords ++ [coords.headI]
      |polygonSignedArea poly| / b.area

/-- `controlledburn::closed_ring_covered_fraction` (analytical_coverage.h). -/
def closedRingCoveredFraction (b : Box) (ring : List Coordinate) : ℚ :=
  if b.area ≤ 0 then 0 else |polygonSignedArea ring| / b.area

/-! ### dense_to_sparse (dense_to_sparse.h) -/

/-- Interior run record (dense_to_sparse.h `GridRun`); all fields 1-based. -/
structure GridRun where
  row : Int
  colStart : Int
  colEnd : Int
  id : Int
deriving DecidableEq, Repr

/-- Boundary cell record (dense_to_sparse.h `GridEdge`); 1-based. -/
structure GridEdge where
  row : Int
  col : Int
  weight : ℚ
  id : Int
deriving DecidableEq, Repr

/-- dense_to_sparse.h `SparseResult`. -/
structure SparseResult where
  runs : List GridRun
  edges : List GridEdge
deriving DecidableEq, Repr

/-- The inner column loop of `dense_to_sparse` (dense_to_sparse.h lines 57-93)
for one row, walking the row's weights with the active-run state `runStart`
(−1 means no active run).  All run closes use `col_offset + j − 1 + 1`,
which equals `colOff + j` where `j` is the current (or one-past-end) index. -/
def dtsRowAux (fullRow : Int) (colOff : Nat) (id : Int) (tol : ℚ) :
    Nat → Int → List ℚ → SparseResult → SparseResult
  | j, runStart, [], res =>
    if runStart ≥ 0 then
      { res with runs := res.runs ++ [⟨fullRow, runStart, (colOff : Int) + j, id⟩] }
    else res
  | j, runStart, w :: ws, res =>
    if w ≤ 0 then
      let res1 := if runStart ≥ 0 then
          { res with runs := res.runs ++ [⟨fullRow, runStart, (colOff : Int) + j, id⟩] }
        else res
      dtsRowAux fullRow colOff id tol (j + 1) (-1) ws res1
    else
      let fullCol : Int := (colOff : Int) + j + 1
      if w ≥ 1 - tol then
        dtsRowAux fullRow colOff id tol (j + 1) (if runStart < 0 then fullCol else runStart) ws res
      else
        let res1 := if runStart ≥ 0 then
            { res with runs := res.runs ++ [⟨fullRow, runStart, (colOff : Int) + j, id⟩] }
          else res
        let res2 := { res1 with edges := res1.edges ++ [⟨fullRow, fullCol, w, id⟩] }
        dtsRowAux fullRow colOff id tol (j + 1) (-1) ws res2

/-- `dense_to_sparse` (dense_to_sparse.h): row-major coverage matrix to
runs + edges.  The flat row-major array access `mat_data[i*ncol+j]` is
modelled by `mat.getD (i*ncol+j) 0`. -/
def denseToSparse (mat : List ℚ) (nrow ncol rowOff colOff : Nat) (id : Int)
    (tol : ℚ) : SparseResult :=
  (List.range nrow).foldl (fun (res : SparseResult) (i : Nat) =>
    let fullRow : Int := (rowOff : Int) + (i : Int) + 1
    let rowWs := (List.range ncol).map (fun (j : Nat) => mat.getD (i * ncol + j) 0)
    dtsRowAux fullRow colOff id tol 0 (-1) rowWs res) ⟨[], []⟩

/-! ### Traversal tracking (scanline_burn.cpp) -/

/-- scanline_burn.cpp `LightTraversal`. -/
structure LightTraversal where
  coords : List Coordinate
  entrySide : Side
  exitSide : Side
deriving DecidableEq, Repr

/-- `LightTraversal::traversed`. -/
def LightTraversal.traversed (t : LightTraversal) : Bool :=
  t.entrySide != Side.NONE && t.exitSide != Side.NONE

/-- `LightTraversal::is_closed_ring`. -/
def LightTraversal.isClosedRing (t : LightTraversal) : Bool :=
  decide (3 ≤ t.coords.length) && decide (t.coords.headI = t.coords.getLastI)

/-- `LightTraversal::multiple_unique_coordinates`. -/
def LightTraversal.multipleUnique (t : LightTraversal) : Bool :=
  match t.coords with
  | [] => false
  | c0 :: rest => rest.any (fun c => c ≠ c0)

/-- scanline_burn.cpp `CellRecord`. -/
structure CellRecord where
  box : Box
  traversals : List LightTraversal
deriving DecidableEq, Repr

/-- scanline_burn.cpp `Location`. -/
inductive Location where
  | INSIDE
  | BOUNDARY
  | OUTSIDE
deriving DecidableEq, Repr

/-- scanline_burn.cpp `point_location`. -/
def pointLocation (b : Box) (c : Coordinate) : Location :=
  if b.strictlyContainsPt c then Location.INSIDE
  else if b.containsPt c then Location.BOUNDARY
  else Location.OUTSIDE

/-- scanline_burn.cpp `BoundaryCellRecord`: per-row aggregated contribution
of one (full-grid, 0-based, possibly virtual padding) column. -/
structure BoundaryCellRecord where
  col : Int
  coverage : ℚ
  windingDelta : Int
deriving DecidableEq, Repr

abbrev RowData := List (List BoundaryCellRecord)

/-! ### Grid model (modelled from the spec) -/

/-- Modelled from the spec: a padded ("infinite") cell-aligned subgrid of the
full grid with one halo cell on each side (§2, §4.7).  Padded row/column 0
and `subRows+1` / `subCols+1` are the halo. -/
structure SubGrid where
  xmin : ℚ
  ymin : ℚ
  xmax : ℚ
  ymax : ℚ
  dx : ℚ
  dy : ℚ
  subRows : Nat
  subCols : Nat
  rowOff : Nat
  colOff : Nat
deriving DecidableEq, Repr

/-- Extent of the halo boxes ("large finite boxes positioned outside the
user extent", §4.1). -/
def bigPad : ℚ := 10 ^ 30

/-- Modelled from the spec: `get_row(y)` on the padded grid; rows count from
the top (§6.3), padded row 0 is the halo above. -/
def SubGrid.getRow (g : SubGrid) (y : ℚ) : Nat :=
  if y > g.ymax then 0
  else if y < g.ymin then g.subRows + 1
  else 1 + min (((g.ymax - y) / g.dy).floor.toNat) (g.subRows - 1)

/-- Modelled from the spec: `get_column(x)` on the padded grid. -/
def SubGrid.getColumn (g : SubGrid) (x : ℚ) : Nat :=
  if x < g.xmin then 0
  else if x > g.xmax then g.subCols + 1
  else 1 + min (((x - g.xmin) / g.dx).floor.toNat) (g.subCols - 1)

/-- Modelled from the spec: `grid_cell(r, c)` of the padded grid returns the
cell box; halo cells are large finite boxes outside the user extent (§4.1). -/
def SubGrid.gridCell (g : SubGrid) (r c : Nat) : Box :=
  let x0 := if c = 0 then g.xmin - bigPad
            else if c ≤ g.subCols then g.xmin + ((c : ℚ) - 1) * g.dx
            else g.xmax
  let x1 := if c = 0 then g.xmin
            else if c ≤ g.subCols then g.xmin + (c : ℚ) * g.dx
            else g.xmax + bigPad
  let y1 := if r = 0 then g.ymax + bigPad
            else if r ≤ g.subRows then g.ymax - ((r : ℚ) - 1) * g.dy
            else g.ymin
  let y0 := if r = 0 then g.ymax
            else if r ≤ g.subRows then g.ymax - (r : ℚ) * g.dy
            else g.ymin - bigPad
  ⟨x0, y0, x1, y1⟩

/-! ### The ring walk (scanline_burn.cpp `walk_ring`, walk phase) -/

abbrev CellKey := Nat × Nat

abbrev CellMap := List (CellKey × CellRecord)

/-- Key order of the `std::map<CellKey, CellRecord>`. -/
def keyLt (a b : CellKey) : Bool :=
  a.1 < b.1 || (a.1 == b.1 && a.2 < b.2)

/-- `get_or_create` followed by `traversals.push_back`, keeping the map
sorted by key as `std::map` iteration order does. -/
def insertTraversal (g : SubGrid) : CellMap → CellKey → LightTraversal → CellMap
  | [], k, t => [(k, ⟨g.gridCell k.1 k.2, [t]⟩)]
  | (k0, cr) :: rest, k, t =>
    if k0 = k then (k0, { cr with traversals := cr.traversals ++ [t] }) :: rest
    else if keyLt k k0 then (k, ⟨g.gridCell k.1 k.2, [t]⟩) :: (k0, cr) :: rest
    else (k0, cr) :: insertTraversal g rest k t

/-- C++ `size_t` decrement with wrap-around at zero. -/
def decWrap (n : Nat) : Nat := if n = 0 then 2 ^ 64 - 1 else n - 1

/-- State of the inner per-cell loop (scanline_burn.cpp lines 194-230). -/
structure InnerState where
  coords : List Coordinate
  pos : Nat
  lastExit : Option Coordinate
  trav : LightTraversal
deriving Repr

/-- Result of one loop iteration: continue with a new state or stop. -/
inductive StepRes (α : Type) (β : Type) where
  | next (a : α)
  | stop (b : β)
deriving DecidableEq, Repr

/-- One iteration of the inner per-cell loop (scanline_burn.cpp
lines 194-230): consume the next coordinate while it stays inside the
current cell; on the first outside coordinate compute the exit crossing
(using the previous original coordinate for robustness) and break; when
`pos` has consumed all coordinates, stop. -/
def innerStep (box : Box) (st : InnerState) : StepRes InnerState InnerState :=
  if st.pos < st.coords.length then
    let next := match st.lastExit with
      | some e => e
      | none => st.coords.getD st.pos default
    let consume : InnerState → InnerState := fun s =>
      match s.lastExit with
      | some _ => { s with lastExit := none }
      | none => { s with pos := s.pos + 1 }
    if st.trav.coords = [] then
      StepRes.next (consume { st with trav := ⟨[next], box.sideOf next, st.trav.exitSide⟩ })
    else
      match pointLocation box next with
      | Location.OUTSIDE =>
        let fromPt := if st.pos > 0 then st.coords.getD (st.pos - 1) default
                      else st.trav.coords.getLastI
        let x := box.crossingOf fromPt next
        let trav1 := { st.trav with coords := st.trav.coords ++ [x.coord], exitSide := x.side }
        StepRes.stop (if x.coord ≠ next then { st with trav := trav1, lastExit := some x.coord }
          else { st with trav := trav1 })
      | _ =>
        StepRes.next (consume { st with trav :=
          { st.trav with coords := st.trav.coords ++ [next] } })
  else StepRes.stop st

/-- The inner per-cell loop: iterate `innerStep`; fuel exhaustion yields
`none`. -/
def innerLoop (box : Box) : Nat → InnerState → Option InnerState
  | 0, _ => none
  | fuel + 1, st =>
    match innerStep box st with
    | StepRes.next st2 => innerLoop box fuel st2
    | StepRes.stop st2 => some st2

/-- State of the outer walk loop. -/
structure WalkState where
  coords : List Coordinate
  pos : Nat
  row : Nat
  col : Nat
  lastExit : Option Coordinate
  cells : CellMap
deriving Repr

/-- The post-inner-loop processing of one visited cell (scanline_burn.cpp
lines 232-264): the force-exit rule, the incomplete-initial rule (append
the partial traversal's coords for reprocessing), recording the traversal,
and the move to the neighbouring cell given by the exit side. -/
def outerProcess (g : SubGrid) (st : WalkState) (is : InnerState) : WalkState :=
  let box := g.gridCell st.row st.col
  let trav0 := is.trav
  let trav := if trav0.exitSide = Side.NONE ∧ trav0.coords ≠ [] ∧
                 pointLocation box trav0.coords.getLastI = Location.BOUNDARY then
      { trav0 with exitSide := box.sideOf trav0.coords.getLastI }
    else trav0
  let exited := trav.exitSide ≠ Side.NONE
  let incomplete := exited ∧ trav.entrySide = Side.NONE
  let coords1 := if incomplete then is.coords ++ trav.coords else is.coords
  let cells1 := insertTraversal g st.cells (st.row, st.col) trav
  let next : Nat × Nat :=
    if exited then
      match trav.exitSide with
      | Side.TOP => (decWrap st.row, st.col)
      | Side.BOTTOM => (st.row + 1, st.col)
      | Side.LEFT => (st.row, decWrap st.col)
      | Side.RIGHT => (st.row, st.col + 1)
      | Side.NONE => (st.row, st.col)
    else (st.row, st.col)
  ⟨coords1, is.pos, next.1, next.2, is.lastExit, cells1⟩

/-- The outer walk loop (scanline_burn.cpp lines 187-265): per visited cell,
run the inner loop, then `outerProcess`; terminate when `pos` has consumed
all coordinates. -/
def outerLoop (g : SubGrid) : Nat → WalkState → Option CellMap
  | 0, _ => none
  | fuel + 1, st =>
    if st.pos < st.coords.length then
      match innerLoop (g.gridCell st.row st.col) fuel
          ⟨st.coords, st.pos, st.lastExit, ⟨[], Side.NONE, Side.NONE⟩⟩ with
      | none => none
      | some is => outerLoop g fuel (outerProcess g st is)
    else some st.cells

/-! ### Multi-traversal coverage (modelled from the spec, §4.3) -/

/-- Cell corners whose CW distance from perimeter position `fromPd` lies
strictly (with the 1e-12 tolerance) inside the CW arc of length `toDist`,
ordered by increasing CW distance. -/
def cwCornersBetween (b : Box) (fromPd toDist : ℚ) : List Coordinate :=
  let perim := b.perimeter
  let tagged := (cornerTags b).map (fun p => (p.1, cwFromExit perim fromPd p.2))
  let inArc := tagged.filter (fun p => decide (eps12 < p.2 ∧ p.2 < toDist - eps12))
  (inArc.insertionSort tagLe).map Prod.fst

/-- Pick from the unused traversals the one whose entry point has minimal CW
distance from `exitPd`; returns it, its distance, and the remaining list. -/
def lhaPick (b : Box) (exitPd : ℚ) :
    List (List Coordinate) → Option (List Coordinate × ℚ × List (List Coordinate))
  | [] => none
  | t :: rest =>
    let d := cwFromExit b.perimeter exitPd (perimeterDistance b t.headI)
    match lhaPick b exitPd rest with
    | none => some (t, d, rest)
    | some (t2, d2, rest2) =>
      if d ≤ d2 then some (t, d, rest) else some (t2, d2, t :: rest2)

/-- Modelled from the spec: the chain-chasing loop of `left_hand_area`
(§4.3; exactextract traversal_areas.h is not part of this repository's
sources).  The optional state is the open chain: its coordinates so far, the
perimeter distance of its starting entry, and of its current exit. -/
def lhaLoop (b : Box) : Nat → List (List Coordinate) →
    Option (List Coordinate × ℚ × ℚ) → ℚ → ℚ
  | 0, _, _, acc => acc
  | fuel + 1, unused, none, acc =>
    match unused with
    | [] => acc
    | t :: rest =>
      lhaLoop b fuel rest (some (t, perimeterDistance b t.headI, perimeterDistance b t.getLastI)) acc
  | fuel + 1, unused, some (ring, startPd, exitPd), acc =>
    let perim := b.perimeter
    let dClose := cwFromExit perim exitPd startPd
    match lhaPick b exitPd unused with
    | none =>
      let closed := ring ++ cwCornersBetween b exitPd dClose ++ [ring.headI]
      lhaLoop b fuel unused none (acc + |polygonSignedArea closed|)
    | some (t, d, rest) =>
      if dClose ≤ d then
        let closed := ring ++ cwCornersBetween b exitPd dClose ++ [ring.headI]
        lhaLoop b fuel unused none (acc + |polygonSignedArea closed|)
      else
        lhaLoop b fuel rest
          (some (ring ++ cwCornersBetween b exitPd d ++ t, startPd, perimeterDistance b t.getLastI))
          acc

/-- Modelled from the spec: `left_hand_area(box, coord_lists)` (§4.3):
chains the traversals along the CW cell perimeter and accumulates the area
of each closed chain; the caller divides by the cell area. -/
def leftHandArea (b : Box) (lists : List (List Coordinate)) : ℚ :=
  lhaLoop b (4 * lists.length + 4) lists none 0

/-! ### Per-cell aggregation (scanline_burn.cpp lines 267-382) -/

/-- The valid-traversal filter (scanline_burn.cpp lines 301-310): proper
traversals with at least two distinct coordinates, or closed rings entirely
within the cell. -/
def validTraversals (cr : CellRecord) : List LightTraversal :=
  cr.traversals.filter (fun t =>
    (t.traversed && t.multipleUnique) || (t.entrySide == Side.NONE && t.isClosedRing))

/-- Column mapping of a padded-grid column to a 0-based full-grid column
(scanline_burn.cpp lines 283-299); the Bool is `in_grid_cols`.  Padding
columns map to the virtual columns `col_off − 1` and `col_off + sub_cols`. -/
def colMapFull (colOff subCols : Nat) (c : Nat) : Int × Bool :=
  if c < 1 then ((colOff : Int) - 1, false)
  else if c - 1 ≥ subCols then ((colOff : Int) + (subCols : Int), false)
  else ((colOff : Int) + ((c : Int) - 1), true)

/-- Coverage fraction of one cell (scanline_burn.cpp lines 314-338). -/
def coverageFrac (box : Box) (valid : List LightTraversal) : ℚ :=
  match valid with
  | [t] =>
    if t.entrySide = Side.NONE ∧ t.isClosedRing then closedRingCoveredFraction box t.coords
    else analyticalCoveredFraction box t.coords
  | _ =>
    if box.area > 0 then leftHandArea box (valid.map (fun t => t.coords)) / box.area else 0

/-- Whether one traversal crosses the cell's y-midpoint (scanline_burn.cpp
lines 364-374): proper traversals of length ≥ 2 whose entry and exit y
strictly straddle `y_mid`. -/
def traversalCrosses (box : Box) (t : LightTraversal) : Bool :=
  if t.traversed = false then false
  else if t.coords.length < 2 then false
  else
    let entryY := t.coords.headI.y
    let exitY := t.coords.getLastI.y
    let yMid := (box.ymin + box.ymax) / 2
    decide ((entryY > yMid ∧ exitY < yMid) ∨ (entryY < yMid ∧ exitY > yMid))

/-- The signed winding delta of a crossing traversal (scanline_burn.cpp
lines 376-377): `(entry_y > y_mid ? −1 : +1) * winding_factor`. -/
def crossDelta (box : Box) (windingFactor : Int) (t : LightTraversal) : Int :=
  (if t.coords.headI.y > (box.ymin + box.ymax) / 2 then -1 else 1) * windingFactor

/-- The winding contribution of one traversal: `crossDelta` when it crosses
the y-midpoint, 0 otherwise. -/
def traversalWindingDelta (box : Box) (windingFactor : Int) (t : LightTraversal) : Int :=
  if traversalCrosses box t then crossDelta box windingFactor t else 0

/-- `find_or_create` followed by `coverage += v` (scanline_burn.cpp
lines 349-361); a missing record is appended at the end with zero fields. -/
def addCoverage (rowVec : List BoundaryCellRecord) (col : Int) (v : ℚ) :
    List BoundaryCellRecord :=
  match rowVec with
  | [] => [⟨col, v, 0⟩]
  | r :: rest =>
    if r.col = col then { r with coverage := r.coverage + v } :: rest
    else r :: addCoverage rest col v

/-- `find_or_create` followed by `winding_delta += d`. -/
def addWinding (rowVec : List BoundaryCellRecord) (col : Int) (d : Int) :
    List BoundaryCellRecord :=
  match rowVec with
  | [] => [⟨col, 0, d⟩]
  | r :: rest =>
    if r.col = col then { r with windingDelta := r.windingDelta + d } :: rest
    else r :: addWinding rest col d

/-- Aggregation of one cell record into the per-row table (the body of the
loop at scanline_burn.cpp lines 269-382): skip padding rows, map the column
(padding columns kept for winding only), record the signed coverage when
nonzero, then record the winding delta of every crossing valid traversal. -/
def applyCell (covFactor : ℚ) (windingFactor : Int) (subRows subCols colOff : Nat)
    (rowData : RowData) (kv : CellKey × CellRecord) : RowData :=
  let r := kv.1.1
  let c := kv.1.2
  if r < 1 then rowData
  else
    let subR := r - 1
    if subR ≥ subRows then rowData
    else
      let mapped := colMapFull colOff subCols c
      let valid := validTraversals kv.2
      if valid = [] then rowData
      else
        let frac : ℚ := if mapped.2 then coverageFrac kv.2.box valid else 0
        let rv0 := rowData.getD subR []
        let rv1 := if frac ≠ 0 then addCoverage rv0 mapped.1 (covFactor * frac) else rv0
        let rv2 := valid.foldl (fun rv t =>
          if traversalCrosses kv.2.box t then
            addWinding rv mapped.1 (crossDelta kv.2.box windingFactor t)
          else rv) rv1
        rowData.set subR rv2

/-- `walk_ring` (scanline_burn.cpp lines 137-383): the guard on degenerate
rings, CCW normalisation, the walk over the padded grid, and the aggregation
of every touched cell into the per-row table.  `none` means fuel ran out. -/
def walkRing (fuel : Nat) (coords0 : List Coordinate) (isCCW isExterior : Bool)
    (g : SubGrid) (rowData : RowData) : Option RowData :=
  if coords0.length < 4 then some rowData
  else
    let coords := if isCCW then coords0 else coords0.reverse
    let covFactor : ℚ := if isExterior then 1 else -1
    let windingFactor : Int := if isExterior then 1 else -1
    let row := g.getRow coords.headI.y
    let col := g.getColumn coords.headI.x
    match outerLoop g fuel ⟨coords, 0, row, col, none, []⟩ with
    | none => none
    | some cells =>
      some (cells.foldl (applyCell covFactor windingFactor g.subRows g.subCols g.colOff) rowData)

/-! ### Winding sweep (scanline_burn.cpp lines 466-516) -/

/-- The classification tolerance `1e-6`. -/
def tol6 : ℚ := 1 / 1000000

/-- Sort key for the row records (std::sort by `col`). -/
def bcrLe (a b : BoundaryCellRecord) : Prop := a.col ≤ b.col

instance : DecidableRel bcrLe := fun a b => inferInstanceAs (Decidable (a.col ≤ b.col))

instance : IsTotal BoundaryCellRecord bcrLe := ⟨fun a b => Int.le_total a.col b.col⟩

instance : IsTrans BoundaryCellRecord bcrLe := ⟨fun _ _ _ h1 h2 => le_trans h1 h2⟩

/-- Merge step (scanline_burn.cpp lines 480-488): `r` is the record at the
back of the merged list; a same-column successor is absorbed into it by
summing coverage and winding. -/
def mergeInto (r : BoundaryCellRecord) : List BoundaryCellRecord → List BoundaryCellRecord
  | [] => [r]
  | r2 :: rest =>
    if r2.col = r.col then
      mergeInto ⟨r.col, r.coverage + r2.coverage, r.windingDelta + r2.windingDelta⟩ rest
    else r :: mergeInto r2 rest

/-- Merge same-column records by summing coverage and winding
(scanline_burn.cpp lines 480-488). -/
def mergeCols : List BoundaryCellRecord → List BoundaryCellRecord
  | [] => []
  | r :: rest => mergeInto r rest

/-- Winding sweep accumulator. -/
structure SweepState where
  winding : Int
  prevCol : Int
  runs : List GridRun
  edges : List GridEdge
deriving DecidableEq, Repr

/-- One step of the winding sweep (scanline_burn.cpp lines 494-515): emit the
interior run between the previous boundary cell and this one when interior,
then classify this boundary cell with tolerance 1e-6, then update winding
and `prev_col`. -/
def sweepStep (fullRow id : Int) (st : SweepState) (mc : BoundaryCellRecord) : SweepState :=
  let runs1 := if st.winding ≠ 0 ∧ st.prevCol > -2 ∧ mc.col > st.prevCol + 1 then
      st.runs ++ [⟨fullRow, st.prevCol + 1 + 1, mc.col - 1 + 1, id⟩]
    else st.runs
  let w := mc.coverage
  let runs2 := if w > tol6 ∧ w < 1 - tol6 then runs1
    else if w ≥ 1 - tol6 then runs1 ++ [⟨fullRow, mc.col + 1, mc.col + 1, id⟩]
    else runs1
  let edges2 := if w > tol6 ∧ w < 1 - tol6 then st.edges ++ [⟨fullRow, mc.col + 1, w, id⟩]
    else st.edges
  ⟨st.winding + mc.windingDelta, mc.col, runs2, edges2⟩

/-- The winding sweep over one row (scanline_burn.cpp lines 470-516): sort by
column, merge duplicates, then fold `sweepStep` from `winding = 0`,
`prev_col = −2`. -/
def sweepRow (fullRow id : Int) (rowVec : List BoundaryCellRecord) :
    List GridRun × List GridEdge :=
  if rowVec = [] then ([], [])
  else
    let merged := mergeCols (rowVec.insertionSort bcrLe)
    let fin := merged.foldl (sweepStep fullRow id) ⟨0, -2, [], []⟩
    (fin.runs, fin.edges)

/-- The sweep over all rows of one polygon component, appending emissions in
row order. -/
def sweepAll (rowOff : Nat) (id : Int) (rowData : RowData) :
    List GridRun × List GridEdge :=
  (List.range rowData.length).foldl (fun (acc : List GridRun × List GridEdge) (sr : Nat) =>
    let re := sweepRow ((rowOff : Int) + (sr : Int) + 1) id (rowData.getD sr [])
    (acc.1 ++ re.1, acc.2 ++ re.2)) ([], [])

/-! ### Geometry dispatcher (scanline_burn.cpp `process_geometry`) -/

/-- The full (bounded) user grid. -/
structure FullGrid where
  xmin : ℚ
  ymin : ℚ
  xmax : ℚ
  ymax : ℚ
  dx : ℚ
  dy : ℚ
  ncol : Int
  nrow : Int
deriving DecidableEq, Repr

/-- Modelled from the spec: `Box::intersects` — closed-extent overlap. -/
def Box.intersectsBox (a b : Box) : Prop :=
  a.xmin ≤ b.xmax ∧ b.xmin ≤ a.xmax ∧ a.ymin ≤ b.ymax ∧ b.ymin ≤ a.ymax

instance (a b : Box) : Decidable (a.intersectsBox b) := by
  unfold Box.intersectsBox; infer_instance

/-- Modelled from the spec: `Box::intersection`. -/
def Box.intersectionBox (a b : Box) : Box :=
  ⟨max a.xmin b.xmin, max a.ymin b.ymin, min a.xmax b.xmax, min a.ymax b.ymax⟩

/-- Modelled from the spec: `Box::contains(Box)`. -/
def Box.containsBox (a b : Box) : Prop :=
  a.xmin ≤ b.xmin ∧ b.xmax ≤ a.xmax ∧ a.ymin ≤ b.ymin ∧ b.ymax ≤ a.ymax

instance (a b : Box) : Decidable (a.containsBox b) := by
  unfold Box.containsBox; infer_instance

/-- Modelled from the spec: `Box::expand_to_include`. -/
def Box.expandToInclude (a b : Box) : Box :=
  ⟨min a.xmin b.xmin, min a.ymin b.ymin, max a.xmax b.xmax, max a.ymax b.ymax⟩

/-- Modelled from the spec: `geos_get_component_boxes` for a single POLYGON
(§4.7; geos_utils is not part of this repository's sources): the bounding
box of the exterior ring's coordinates, when it has any. -/
def ringBBox : List Coordinate → Option Box
  | [] => none
  | c :: rest =>
    some (rest.foldl
      (fun (b : Box) (p : Coordinate) =>
        ⟨min b.xmin p.x, min b.ymin p.y, max b.xmax p.x, max b.ymax p.y⟩)
      ⟨c.x, c.y, c.x, c.y⟩)

/-- Modelled from the spec: `shrink_to_fit(region)` followed by
`make_infinite` (§4.7, §6.3): the minimal cell-aligned window of the full
grid covering `region`, clamped to the grid bounds.  Because the window is
cell-aligned, `rowOff`/`colOff` coincide with the code's
`round((ymax − sub.ymax)/dy)` / `round((sub.xmin − xmin)/dx)`. -/
def shrinkToFit (fg : FullGrid) (region : Box) : SubGrid :=
  let ncolN := fg.ncol.toNat
  let nrowN := fg.nrow.toNat
  let c0 : Nat := min (((region.xmin - fg.xmin) / fg.dx).floor.toNat) (ncolN - 1)
  let c1 : Nat := min (max (((region.xmax - fg.xmin) / fg.dx).ceil.toNat) (c0 + 1)) ncolN
  let r0 : Nat := min (((fg.ymax - region.ymax) / fg.dy).floor.toNat) (nrowN - 1)
  let r1 : Nat := min (max (((fg.ymax - region.ymin) / fg.dy).ceil.toNat) (r0 + 1)) nrowN
  { xmin := fg.xmin + (c0 : ℚ) * fg.dx
    ymin := fg.ymax - (r1 : ℚ) * fg.dy
    xmax := fg.xmin + (c1 : ℚ) * fg.dx
    ymax := fg.ymax - (r0 : ℚ) * fg.dy
    dx := fg.dx
    dy := fg.dy
    subRows := r1 - r0
    subCols := c1 - c0
    rowOff := r0
    colOff := c0 }

/-- One ring of a polygon as obtained from GEOS (coordinates plus the result
of the ring CCW test). -/
structure RingData where
  coords : List Coordinate
  isCCW : Bool
deriving DecidableEq, Repr

/-- A successfully read POLYGON: exterior ring and holes. -/
structure PolyData where
  exterior : RingData
  holes : List RingData
deriving DecidableEq, Repr

/-- A GEOS failure raised while processing a geometry: the GEOS error handler
calls `cpp11::stop`, which throws. -/
inductive GeosErr where
  | err
deriving DecidableEq, Repr

mutual
/-- A parsed geometry as dispatched by `process_geometry`: a POLYGON whose
GEOS ring access either succeeds or throws, a MULTIPOLYGON /
GEOMETRYCOLLECTION of children, or some other geometry type (ignored). -/
inductive Geom where
  | poly (d : Except GeosErr PolyData)
  | multi (gs : GeomList)
  | nonPoly

/-- A list of child geometries (kept mutual for structural recursion). -/
inductive GeomList where
  | nil
  | cons (g : Geom) (gs : GeomList)
end

/-- Walk all hole rings (scanline_burn.cpp lines 454-464) against the same
subgrid and row table. -/
def walkHoles (fuel : Nat) (g : SubGrid) : List RingData → RowData → Option RowData
  | [], rd => some rd
  | h :: hs, rd =>
    match walkRing fuel h.coords h.isCCW false g rd with
    | none => none
    | some rd1 => walkHoles fuel g hs rd1

/-- Processing of one POLYGON (scanline_burn.cpp lines 414-516): bounding
region against the grid extent, subgrid, exterior and hole walks, winding
sweep.  Returns the runs and edges this polygon emits; `none` means fuel
ran out. -/
def processPoly (fuel : Nat) (fg : FullGrid) (d : PolyData) (id : Int) :
    Option (List GridRun × List GridEdge) :=
  let fgBox : Box := ⟨fg.xmin, fg.ymin, fg.xmax, fg.ymax⟩
  let boxes := (ringBBox d.exterior.coords).toList
  let region : Option Box := boxes.foldl (fun reg bx =>
    if bx.intersectsBox fgBox then
      let isect := bx.intersectionBox fgBox
      match reg with
      | none => some isect
      | some r => if r.containsBox isect then some r else some (r.expandToInclude isect)
    else reg) none
  match region with
  | none => some ([], [])
  | some reg =>
    let g := shrinkToFit fg reg
    if g.subRows = 0 ∨ g.subCols = 0 then some ([], [])
    else
      let rd0 : RowData := List.replicate g.subRows []
      match walkRing fuel d.exterior.coords d.exterior.isCCW true g rd0 with
      | none => none
      | some rd1 =>
        match walkHoles fuel g d.holes rd1 with
        | none => none
        | some rd2 => some (sweepAll g.rowOff id rd2)

mutual
/-- `process_geometry` (scanline_burn.cpp lines 393-517) with the C++
exception flow made explicit: the Bool is true when a GEOS call threw, in
which case the accumulators keep whatever was appended before the throw
(the C++ appends in place and the catch does not roll back).  `none` means
fuel ran out (a model artefact, not a C++ behaviour). -/
def processGeom (fuel : Nat) (fg : FullGrid) (id : Int)
    (acc : List GridRun × List GridEdge) :
    Geom → Option ((List GridRun × List GridEdge) × Bool)
  | Geom.nonPoly => some (acc, false)
  | Geom.poly (Except.error _) => some (acc, true)
  | Geom.poly (Except.ok d) =>
    match processPoly fuel fg d id with
    | none => none
    | some re => some ((acc.1 ++ re.1, acc.2 ++ re.2), false)
  | Geom.multi gs => processGeomList fuel fg id acc gs

/-- The child loop of `process_geometry` for MULTIPOLYGON /
GEOMETRYCOLLECTION: children processed in order against the same
accumulators; a throw aborts the remaining children. -/
def processGeomList (fuel : Nat) (fg : FullGrid) (id : Int)
    (acc : List GridRun × List GridEdge) :
    GeomList → Option ((List GridRun × List GridEdge) × Bool)
  | GeomList.nil => some (acc, false)
  | GeomList.cons g gs =>
    match processGeom fuel fg id acc g with
    | none => none
    | some r =>
      if r.2 then some (r.1, true) else processGeomList fuel fg id r.1 gs
end

/-! ### Entry point (scanline_burn.cpp `cpp_scanline_burn`) -/

/-- A warning emitted by the entry point, referencing the 1-based geometry
index. -/
inductive Warning where
  | parseFail (idx : Int)
  | computeFail (idx : Int)
deriving DecidableEq, Repr

/-- One element of the input WKB list as seen by the entry point: an empty
buffer, a buffer whose WKB parse fails, or a parsed geometry together with
its `GEOSisEmpty` result. -/
inductive WkbSlot where
  | emptyBuf
  | badWkb
  | geom (isEmptyGeom : Bool) (g : Geom)

/-- The output tables of the entry point. -/
structure BurnOutput where
  runs : List GridRun
  edges : List GridEdge
  warnings : List Warning
deriving DecidableEq, Repr

/-- The per-geometry loop of `cpp_scanline_burn` (scanline_burn.cpp
lines 552-577): empty buffers and empty geometries are skipped silently,
parse failures warn and skip, a geometry whose processing throws warns and
processing continues with the accumulators as mutated up to the throw. -/
def burnSlots (fuel : Nat) (fg : FullGrid) : Nat → List WkbSlot → BurnOutput → Option BurnOutput
  | _, [], out => some out
  | k, slot :: rest, out =>
    match slot with
    | WkbSlot.emptyBuf => burnSlots fuel fg (k + 1) rest out
    | WkbSlot.badWkb =>
      burnSlots fuel fg (k + 1) rest
        { out with warnings := out.warnings ++ [Warning.parseFail ((k : Int) + 1)] }
    | WkbSlot.geom true _ => burnSlots fuel fg (k + 1) rest out
    | WkbSlot.geom false g =>
      match processGeom fuel fg ((k : Int) + 1) (out.runs, out.edges) g with
      | none => none
      | some (acc1, thrown) =>
        let out1 : BurnOutput :=
          { runs := acc1.1, edges := acc1.2
            warnings := if thrown then out.warnings ++ [Warning.computeFail ((k : Int) + 1)]
                        else out.warnings }
        burnSlots fuel fg (k + 1) rest out1

/-- `cpp_scanline_burn` (scanline_burn.cpp lines 522-632).  `none` models a
hard error (invalid extent or dimensions, which `cpp11::stop`) or fuel
exhaustion of the walk. -/
def scanlineBurn (fuel : Nat) (slots : List WkbSlot)
    (xmin ymin xmax ymax : ℚ) (ncol nrow : Int) : Option BurnOutput :=
  if ncol ≤ 0 ∨ nrow ≤ 0 then none
  else if xmax ≤ xmin ∨ ymax ≤ ymin then none
  else
    let dx := (xmax - xmin) / (ncol : ℚ)
    let dy := (ymax - ymin) / (nrow : ℚ)
    burnSlots fuel ⟨xmin, ymin, xmax, ymax, dx, dy, ncol, nrow⟩ 0 slots ⟨[], [], []⟩

/-! ### Auxiliary notions used by the theorem statements -/

/-- A point on the closed box that is not strictly interior: "on the cell
boundary" (§4.2 contract). -/
def onBoundary (b : Box) (p : Coordinate) : Prop :=
  b.containsPt p ∧ ¬ b.strictlyContainsPt p

instance (b : Box) (p : Coordinate) : Decidable (onBoundary b p) := by
  unfold onBoundary; infer_instance

def GeomList.toList : GeomList → List Geom
  | GeomList.nil => []
  | GeomList.cons g gs => g :: GeomList.toList gs

/-- Total winding delta recorded in one row of the table at one column. -/
def windingSum (rd : RowData) (subR : Nat) (col : Int) : Int :=
  (((rd.getD subR []).filter (fun rec => decide (rec.col = col))).map
    (fun rec => rec.windingDelta)).sum

/-- Total coverage recorded in one row of the table at one column. -/
def coverageSum (rd : RowData) (subR : Nat) (col : Int) : ℚ :=
  (((rd.getD subR []).filter (fun rec => decide (rec.col = col))).map
    (fun rec => rec.coverage)).sum

/-- Specification-side (C9): a cell is "full" when `w ≥ 1 − tol`. -/
def isFullB (tol w : ℚ) : Bool := decide (1 - tol ≤ w)

/-- Specification-side (C9, from the claim's wording): one run per maximal
consecutive span of full cells of the row, scanned left to right; a span
starting at relative column `j` extends over the following full cells and
its 1-based output columns are `colOff+j+1 .. colOff+j+1+len` where `len`
is the number of further full cells. -/
def specRowRuns (tol : ℚ) (fullRow : Int) (colOff : Nat) (id : Int) :
    Nat → List ℚ → List GridRun
  | _, [] => []
  | j, w :: rest =>
    if isFullB tol w then
      let t := rest.takeWhile (isFullB tol)
      ⟨fullRow, (colOff : Int) + (j : Int) + 1, (colOff : Int) + (j : Int) + 1 + t.length, id⟩ ::
        specRowRuns tol fullRow colOff id (j + 1 + t.length) (rest.drop t.length)
    else specRowRuns tol fullRow colOff id (j + 1) rest
termination_by _ ws => ws.length
decreasing_by
  · simp only [List.length_drop, List.length_cons]
    omega
  · simp only [List.length_cons]
    omega

/-- Specification-side (C9): one edge per cell with `0 < w < 1 − tol`, in
column order, nothing for cells with `w ≤ 0`. -/
def specRowEdges (tol : ℚ) (fullRow : Int) (colOff : Nat) (id : Int) :
    Nat → List ℚ → List GridEdge
  | _, [] => []
  | j, w :: rest =>
    (if 0 < w ∧ w < 1 - tol then [⟨fullRow, (colOff : Int) + (j : Int) + 1, w, id⟩] else []) ++
      specRowEdges tol fullRow colOff id (j + 1) rest

/-- Emission order on runs: increasing row, and within one row increasing,
pairwise disjoint column ranges. -/
def runOrd (a b : GridRun) : Prop :=
  a.row < b.row ∨ (a.row = b.row ∧ a.colEnd < b.colStart)

/-- Emission order on edges: increasing row, then increasing column. -/
def edgeOrd (a b : GridEdge) : Prop :=
  a.row < b.row ∨ (a.row = b.row ∧ a.col < b.col)

/-- An input slot that is not a multi-part geometry (single POLYGON, other
type, empty or unparseable buffer). -/
def slotSimple : WkbSlot → Prop
  | WkbSlot.geom false (Geom.multi _) => False
  | _ => True

/-- Invariant P1 for runs: 1-based row and column range inside the grid. -/
def runInBounds (nrowI ncolI : Int) (r : GridRun) : Prop :=
  1 ≤ r.row ∧ r.row ≤ nrowI ∧ 1 ≤ r.colStart ∧ r.colStart ≤ r.colEnd ∧ r.colEnd ≤ ncolI

/-- Invariants P1/P2 for edges: in-grid cell and weight strictly in (0,1). -/
def edgeInBounds (nrowI ncolI : Int) (e : GridEdge) : Prop :=
  1 ≤ e.row ∧ e.row ≤ nrowI ∧ 1 ≤ e.col ∧ e.col ≤ ncolI ∧ 0 < e.weight ∧ e.weight < 1

/-- Row-table record invariant: the column lies in the padded window
`[lo − 1, hi]` (`lo` = col_off, `hi` = col_off + sub_cols), and records on
the two padding columns carry winding only (zero coverage). -/
def recOkI (lo hi : Int) (rec : BoundaryCellRecord) : Prop :=
  lo - 1 ≤ rec.col ∧ rec.col ≤ hi ∧ (¬ (lo ≤ rec.col ∧ rec.col < hi) → rec.coverage = 0)

/-- The row-table invariant over all rows. -/
def rowOk (lo hi : Int) (rd : RowData) : Prop :=
  ∀ rv ∈ rd, ∀ x ∈ rv, recOkI lo hi x

/-- What one row's sweep guarantees of each emitted run: row, id, and
1-based columns within `[1, hi]`. -/
def runBasic (fr id hi : Int) (r : GridRun) : Prop :=
  r.row = fr ∧ r.id = id ∧ 1 ≤ r.colStart ∧ r.colStart ≤ r.colEnd ∧ r.colEnd ≤ hi

/-- What one row's sweep guarantees of each emitted edge: row, id, 1-based
column within `[1, hi]`, weight strictly between the tolerances. -/
def edgeBasic (fr id hi : Int) (e : GridEdge) : Prop :=
  e.row = fr ∧ e.id = id ∧ 1 ≤ e.col ∧ e.col ≤ hi ∧ tol6 < e.weight ∧ e.weight < 1 - tol6

/-- The sweep-fold invariant: all emissions are well formed, cover only
cells `≤ m`, appear in strictly increasing column order, and no cell is
covered twice (runs pairwise disjoint, edges pairwise distinct, runs and
edges mutually disjoint). -/
def emitsOk (fr id hi m : Int) (runs : List GridRun) (edges : List GridEdge) : Prop :=
  (∀ r ∈ runs, runBasic fr id hi r ∧ r.colEnd ≤ m) ∧
  (∀ e ∈ edges, edgeBasic fr id hi e ∧ e.col ≤ m) ∧
  List.Pairwise (fun a b => a.colEnd < b.colStart) runs ∧
  List.Pairwise (fun (a b : GridEdge) => a.col < b.col) edges ∧
  (∀ r ∈ runs, ∀ e ∈ edges, e.col < r.colStart ∨ r.colEnd < e.col)

/-- What one polygon component's rasterization guarantees: bounds, constant
id, row-major emission order and per-row disjointness. -/
def blockOk (id nrowI ncolI : Int) (rs : List GridRun) (es : List GridEdge) : Prop :=
  (∀ r ∈ rs, r.id = id ∧ runInBounds nrowI ncolI r) ∧
  (∀ e ∈ es, e.id = id ∧ edgeInBounds nrowI ncolI e) ∧
  List.Pairwise runOrd rs ∧ List.Pairwise edgeOrd es ∧
  (∀ r ∈ rs, ∀ e ∈ es, r.row ≠ e.row ∨ e.col < r.colStart ∨ r.colEnd < e.col)

/-- Grouped emission order on runs: increasing id, and `runOrd` within one
id. -/
def runGrpLt (a b : GridRun) : Prop := a.id < b.id ∨ (a.id = b.id ∧ runOrd a b)

/-- Grouped emission order on edges: increasing id, and `edgeOrd` within
one id. -/
def edgeGrpLt (a b : GridEdge) : Prop := a.id < b.id ∨ (a.id = b.id ∧ edgeOrd a b)

/-- How many output records cover grid cell `c` of row `row` under polygon
`id`: runs whose column range contains `c` plus edges at column `c`. -/
def coverCount (out : BurnOutput) (id row c : Int) : Nat :=
  (out.runs.filter (fun r =>
    decide (r.id = id ∧ r.row = row ∧ r.colStart ≤ c ∧ c ≤ r.colEnd))).length +
  (out.edges.filter (fun e => decide (e.id = id ∧ e.row = row ∧ e.col = c))).length

/-- The first `n` rows of `sweepAll`'s fold (for induction on the table). -/
def sweepPrefix (rowOff : Nat) (id : Int) (rd : RowData) (n : Nat) :
    List GridRun × List GridEdge :=
  (List.range n).foldl (fun (acc : List GridRun × List GridEdge) (sr : Nat) =>
    let re := sweepRow ((rowOff : Int) + (sr : Int) + 1) id (rd.getD sr [])
    (acc.1 ++ re.1, acc.2 ++ re.2)) ([], [])

/-- The accumulator invariant of the per-geometry loop after `k` slots:
bounds, ids in `[1, k]`, and ids non-decreasing. -/
def outOk (k : Nat) (nrowI ncolI : Int) (out : BurnOutput) : Prop :=
  (∀ r ∈ out.runs, 1 ≤ r.id ∧ r.id ≤ k ∧ runInBounds nrowI ncolI r) ∧
  (∀ e ∈ out.edges, 1 ≤ e.id ∧ e.id ≤ k ∧ edgeInBounds nrowI ncolI e) ∧
  List.Pairwise (fun a b => a.id ≤ b.id) out.runs ∧
  List.Pairwise (fun (a b : GridEdge) => a.id ≤ b.id) out.edges

/-- The extra accumulator invariant available when every slot is a single
polygon: grouped emission order and single coverage of every cell. -/
def outOkSimple (out : BurnOutput) : Prop :=
  List.Pairwise runGrpLt out.runs ∧ List.Pairwise edgeGrpLt out.edges ∧
  ∀ id row c, coverCount out id row c ≤ 1

/-! ### Concrete inputs used by counterexamples and witnesses -/

/-- The unit cell. -/
def unitBox : Box := ⟨0, 0, 1, 1⟩

/-- A ring running around the unit cell boundary twice: it satisfies the
§4.2 contract (ends on the boundary, intermediates on the boundary) yet its
shoelace area is twice the cell area. -/
def dblRing : List Coordinate :=
  [⟨0, 0⟩, ⟨1, 0⟩, ⟨1, 1⟩, ⟨0, 1⟩, ⟨0, 0⟩, ⟨1, 0⟩, ⟨1, 1⟩, ⟨0, 1⟩, ⟨0, 0⟩]

/-- A diagonal traversal of the unit cell. -/
def diagTrav : List Coordinate := [⟨0, 0⟩, ⟨1, 1⟩]

/-- A small CCW square strictly inside the cell `(0,0)-(3,3)`. -/
def sqRing : List Coordinate := [⟨1, 1⟩, ⟨2, 1⟩, ⟨2, 2⟩, ⟨1, 2⟩, ⟨1, 1⟩]

/-- The same square as a POLYGON. -/
def sqPoly : Geom := Geom.poly (Except.ok ⟨⟨sqRing, true⟩, []⟩)

/-- A small CCW square strictly inside the cell `(0,3)-(3,6)`. -/
def sqRingTop : List Coordinate := [⟨1, 4⟩, ⟨2, 4⟩, ⟨2, 5⟩, ⟨1, 5⟩, ⟨1, 4⟩]

def sqPolyTop : Geom := Geom.poly (Except.ok ⟨⟨sqRingTop, true⟩, []⟩)

/-- A MULTIPOLYGON of two identical components (components of a valid
multipolygon may not overlap, but the WKB reader performs no validation, so
this is a reachable input). -/
def dupMulti : Geom :=
  Geom.multi (GeomList.cons sqPoly (GeomList.cons sqPoly GeomList.nil))

/-- A MULTIPOLYGON whose first component lies in a lower grid row than its
second. -/
def risingMulti : Geom :=
  Geom.multi (GeomList.cons sqPoly (GeomList.cons sqPolyTop GeomList.nil))

/-- A MULTIPOLYGON whose first component is fine and whose second throws
during GEOS access. -/
def throwingMulti : Geom :=
  Geom.multi (GeomList.cons sqPoly
    (GeomList.cons (Geom.poly (Except.error GeosErr.err)) GeomList.nil))

/-- The spec scenario-1 square `(1,1)-(3,3)` as a POLYGON. -/
def squarePoly : Geom :=
  Geom.poly (Except.ok ⟨⟨[⟨1, 1⟩, ⟨3, 1⟩, ⟨3, 3⟩, ⟨1, 3⟩, ⟨1, 1⟩], true⟩, []⟩)

/-- The 1-by-1 grid over `(0,0)-(3,3)`. -/
def fg3 : FullGrid := ⟨0, 0, 3, 3, 3, 3, 1, 1⟩

/-- The 1-by-2 grid over `(0,0)-(3,6)`. -/
def fg36 : FullGrid := ⟨0, 0, 3, 6, 3, 3, 1, 2⟩

/-- The padded subgrid of `fg3` covering the whole grid. -/
def tg : SubGrid := ⟨0, 0, 3, 3, 3, 3, 1, 1, 0, 0⟩

/-- The padded subgrid of `fg36` covering its bottom cell. -/
def tgB : SubGrid := ⟨0, 0, 3, 3, 3, 3, 1, 1, 1, 0⟩

/-- The padded subgrid of `fg36` covering its top cell. -/
def tgT : SubGrid := ⟨0, 3, 3, 6, 3, 3, 1, 1, 0, 0⟩

/-- The single cell of `fg3`. -/
def ubox : Box := ⟨0, 0, 3, 3⟩

/-- The top cell of `fg36`. -/
def tbox : Box := ⟨0, 3, 3, 6⟩

/-- The traversal recorded for `sqRing` (a closed ring inside one cell). -/
def travSq : LightTraversal := ⟨sqRing, Side.NONE, Side.NONE⟩

/-- The traversal recorded for `sqRingTop`. -/
def travSqTop : LightTraversal := ⟨sqRingTop, Side.NONE, Side.NONE⟩

/-! ## Theorems -/

/-! ### Loop-step helper lemmas and concrete evaluations -/

theorem innerLoop_next (box : Box) (fuel : Nat) (st st2 : InnerState)
    (h : innerStep box st = StepRes.next st2) :
    innerLoop box (fuel + 1) st = innerLoop box fuel st2 := by
  rw [innerLoop, h]

theorem innerLoop_stop (box : Box) (fuel : Nat) (st st2 : InnerState)
    (h : innerStep box st = StepRes.stop st2) :
    innerLoop box (fuel + 1) st = some st2 := by
  rw [innerLoop, h]

theorem outerLoop_enter (g : SubGrid) (fuel : Nat) (st : WalkState) (is : InnerState)
    (h1 : st.pos < st.coords.length)
    (h2 : innerLoop (g.gridCell st.row st.col) fuel
      ⟨st.coords, st.pos, st.lastExit, ⟨[], Side.NONE, Side.NONE⟩⟩ = some is) :
    outerLoop g (fuel + 1) st = outerLoop g fuel (outerProcess g st is) := by
  rw [outerLoop, if_pos h1, h2]

theorem outerLoop_done (g : SubGrid) (fuel : Nat) (st : WalkState)
    (h : ¬ st.pos < st.coords.length) :
    outerLoop g (fuel + 1) st = some st.cells := by
  rw [outerLoop, if_neg h]

set_option maxHeartbeats 1000000 in
theorem innerEval_sq : innerLoop ubox 39 ⟨sqRing, 0, none, ⟨[], Side.NONE, Side.NONE⟩⟩ =
    some ⟨sqRing, 5, none, travSq⟩ := by
  have e1 : innerStep ubox ⟨sqRing, 0, none, ⟨[], Side.NONE, Side.NONE⟩⟩ =
      StepRes.next ⟨sqRing, 1, none, ⟨[⟨1, 1⟩], Side.NONE, Side.NONE⟩⟩ := by
    norm_num [innerStep, sqRing, ubox, Box.sideOf, pointLocation, Box.containsPt,
      Box.strictlyContainsPt, List.cons_ne_nil]
  have e2 : innerStep ubox ⟨sqRing, 1, none, ⟨[⟨1, 1⟩], Side.NONE, Side.NONE⟩⟩ =
      StepRes.next ⟨sqRing, 2, none, ⟨[⟨1, 1⟩, ⟨2, 1⟩], Side.NONE, Side.NONE⟩⟩ := by
    norm_num [innerStep, sqRing, ubox, Box.sideOf, pointLocation, Box.containsPt,
      Box.strictlyContainsPt, List.cons_ne_nil]
  have e3 : innerStep ubox ⟨sqRing, 2, none, ⟨[⟨1, 1⟩, ⟨2, 1⟩], Side.NONE, Side.NONE⟩⟩ =
      StepRes.next ⟨sqRing, 3, none, ⟨[⟨1, 1⟩, ⟨2, 1⟩, ⟨2, 2⟩], Side.NONE, Side.NONE⟩⟩ := by
    norm_num [innerStep, sqRing, ubox, Box.sideOf, pointLocation, Box.containsPt,
      Box.strictlyContainsPt, List.cons_ne_nil]
  have e4 : innerStep ubox ⟨sqRing, 3, none, ⟨[⟨1, 1⟩, ⟨2, 1⟩, ⟨2, 2⟩], Side.NONE, Side.NONE⟩⟩ =
      StepRes.next ⟨sqRing, 4, none,
        ⟨[⟨1, 1⟩, ⟨2, 1⟩, ⟨2, 2⟩, ⟨1, 2⟩], Side.NONE, Side.NONE⟩⟩ := by
    norm_num [innerStep, sqRing, ubox, Box.sideOf, pointLocation, Box.containsPt,
      Box.strictlyContainsPt, List.cons_ne_nil]
  have e5 : innerStep ubox ⟨sqRing, 4, none,
      ⟨[⟨1, 1⟩, ⟨2, 1⟩, ⟨2, 2⟩, ⟨1, 2⟩], Side.NONE, Side.NONE⟩⟩ =
      StepRes.next ⟨sqRing, 5, none, travSq⟩ := by
    norm_num [innerStep, sqRing, ubox, travSq, Box.sideOf, pointLocation, Box.containsPt,
      Box.strictlyContainsPt, List.cons_ne_nil]
  have e6 : innerStep ubox ⟨sqRing, 5, none, travSq⟩ =
      StepRes.stop ⟨sqRing, 5, none, travSq⟩ := by
    norm_num [innerStep, sqRing]
  calc innerLoop ubox 39 ⟨sqRing, 0, none, ⟨[], Side.NONE, Side.NONE⟩⟩
      = innerLoop ubox 38 ⟨sqRing, 1, none, ⟨[⟨1, 1⟩], Side.NONE, Side.NONE⟩⟩ :=
        innerLoop_next _ 38 _ _ e1
    _ = innerLoop ubox 37 ⟨sqRing, 2, none, ⟨[⟨1, 1⟩, ⟨2, 1⟩], Side.NONE, Side.NONE⟩⟩ :=
        innerLoop_next _ 37 _ _ e2
    _ = innerLoop ubox 36 ⟨sqRing, 3, none, ⟨[⟨1, 1⟩, ⟨2, 1⟩, ⟨2, 2⟩], Side.NONE, Side.NONE⟩⟩ :=
        innerLoop_next _ 36 _ _ e3
    _ = innerLoop ubox 35 ⟨sqRing, 4, none,
          ⟨[⟨1, 1⟩, ⟨2, 1⟩, ⟨2, 2⟩, ⟨1, 2⟩], Side.NONE, Side.NONE⟩⟩ :=
        innerLoop_next _ 35 _ _ e4
    _ = innerLoop ubox 34 ⟨sqRing, 5, none, travSq⟩ := innerLoop_next _ 34 _ _ e5
    _ = some ⟨sqRing, 5, none, travSq⟩ := innerLoop_stop _ 33 _ _ e6

set_option maxHeartbeats 1000000 in
theorem walkEval_sq_gen (g : SubGrid) (hb : g.gridCell 1 1 = ubox)
    (hr : g.getRow 1 = 1) (hc : g.getColumn 1 = 1) (hsr : g.subRows = 1)
    (hsc : g.subCols = 1) (hco : g.colOff = 0) :
    walkRing 40 sqRing true true g [[]] = some [[⟨0, 1/9, 0⟩]] := by
  have h2 : innerLoop (g.gridCell 1 1) 39 ⟨sqRing, 0, none, ⟨[], Side.NONE, Side.NONE⟩⟩ =
      some ⟨sqRing, 5, none, travSq⟩ := by rw [hb]; exact innerEval_sq
  have hop : outerProcess g ⟨sqRing, 0, 1, 1, none, []⟩ ⟨sqRing, 5, none, travSq⟩ =
      ⟨sqRing, 5, 1, 1, none, [((1, 1), ⟨ubox, [travSq]⟩)]⟩ := by
    norm_num +decide [outerProcess, hb, travSq, sqRing, ubox, pointLocation, Box.containsPt,
      Box.strictlyContainsPt, insertTraversal, List.cons_ne_nil, List.getLastI]
  have hout : outerLoop g 40 ⟨sqRing, 0, 1, 1, none, []⟩ =
      some [((1, 1), ⟨ubox, [travSq]⟩)] := by
    calc outerLoop g 40 ⟨sqRing, 0, 1, 1, none, []⟩
        = outerLoop g 39 (outerProcess g ⟨sqRing, 0, 1, 1, none, []⟩
            ⟨sqRing, 5, none, travSq⟩) :=
          outerLoop_enter g 39 _ _ (by norm_num [sqRing]) h2
      _ = outerLoop g 39 ⟨sqRing, 5, 1, 1, none, [((1, 1), ⟨ubox, [travSq]⟩)]⟩ := by rw [hop]
      _ = some [((1, 1), ⟨ubox, [travSq]⟩)] := outerLoop_done g 38 _ (by norm_num [sqRing])
  have hagg : applyCell 1 1 g.subRows g.subCols g.colOff [[]] ((1, 1), ⟨ubox, [travSq]⟩) =
      [[⟨0, 1/9, 0⟩]] := by
    norm_num [applyCell, hsr, hsc, hco, ubox, travSq, sqRing, colMapFull, validTraversals,
      LightTraversal.traversed, LightTraversal.isClosedRing, LightTraversal.multipleUnique,
      List.getLastI, List.headI, coverageFrac, closedRingCoveredFraction, polygonSignedArea,
      shoelaceAux, Box.area, Box.width, Box.height, addCoverage, addWinding,
      traversalCrosses, crossDelta, List.cons_ne_nil]
  rw [walkRing]
  norm_num [sqRing, List.headI, hr, hc]
  rw [show ([⟨1, 1⟩, ⟨2, 1⟩, ⟨2, 2⟩, ⟨1, 2⟩, ⟨1, 1⟩] : List Coordinate) = sqRing from rfl]
  rw [hout]
  norm_num
  exact hagg

set_option maxHeartbeats 1000000 in
theorem processPolyEval_sq (id : Int) :
    processPoly 40 fg3 ⟨⟨sqRing, true⟩, []⟩ id = some ([], [⟨1, 1, 1/9, id⟩]) := by
  have hshrink : shrinkToFit ⟨0, 0, 3, 3, 3, 3, 1, 1⟩ ⟨1, 1, 2, 2⟩ = tg := by
    norm_num [shrinkToFit, tg, Rat.floor, Rat.ceil]
  have hwalk : walkRing 40 sqRing true true tg [[]] = some [[⟨0, 1/9, 0⟩]] :=
    walkEval_sq_gen tg (by norm_num [SubGrid.gridCell, tg, ubox, bigPad])
      (by norm_num [SubGrid.getRow, tg, Rat.floor])
      (by norm_num [SubGrid.getColumn, tg, Rat.floor]) rfl rfl rfl
  have hsweep : sweepAll tg.rowOff id [[⟨0, 1/9, 0⟩]] = ([], [⟨1, 1, 1/9, id⟩]) := by
    norm_num [sweepAll, tg, sweepRow, List.insertionSort, List.orderedInsert, mergeCols,
      mergeInto, sweepStep, tol6, List.cons_ne_nil, List.range_succ, List.range_zero]
  rw [processPoly]
  norm_num +decide [sqRing, ringBBox, fg3, Box.intersectsBox, Box.intersectionBox,
    Box.containsBox, Box.expandToInclude, hshrink, List.cons_ne_nil]
  rw [show List.replicate tg.subRows ([] : List BoundaryCellRecord) = [[]] from rfl,
    show ([⟨1, 1⟩, ⟨2, 1⟩, ⟨2, 2⟩, ⟨1, 2⟩, ⟨1, 1⟩] : List Coordinate) = sqRing from rfl, hwalk]
  norm_num [walkHoles]
  exact hsweep

set_option maxHeartbeats 1000000 in
theorem innerEval_sqTop :
    innerLoop tbox 39 ⟨sqRingTop, 0, none, ⟨[], Side.NONE, Side.NONE⟩⟩ =
    some ⟨sqRingTop, 5, none, travSqTop⟩ := by
  have e1 : innerStep tbox ⟨sqRingTop, 0, none, ⟨[], Side.NONE, Side.NONE⟩⟩ =
      StepRes.next ⟨sqRingTop, 1, none, ⟨[⟨1, 4⟩], Side.NONE, Side.NONE⟩⟩ := by
    norm_num [innerStep, sqRingTop, tbox, Box.sideOf, pointLocation, Box.containsPt,
      Box.strictlyContainsPt, List.cons_ne_nil]
  have e2 : innerStep tbox ⟨sqRingTop, 1, none, ⟨[⟨1, 4⟩], Side.NONE, Side.NONE⟩⟩ =
      StepRes.next ⟨sqRingTop, 2, none, ⟨[⟨1, 4⟩, ⟨2, 4⟩], Side.NONE, Side.NONE⟩⟩ := by
    norm_num [innerStep, sqRingTop, tbox, Box.sideOf, pointLocation, Box.containsPt,
      Box.strictlyContainsPt, List.cons_ne_nil]
  have e3 : innerStep tbox ⟨sqRingTop, 2, none, ⟨[⟨1, 4⟩, ⟨2, 4⟩], Side.NONE, Side.NONE⟩⟩ =
      StepRes.next ⟨sqRingTop, 3, none, ⟨[⟨1, 4⟩, ⟨2, 4⟩, ⟨2, 5⟩], Side.NONE, Side.NONE⟩⟩ := by
    norm_num [innerStep, sqRingTop, tbox, Box.sideOf, pointLocation, Box.containsPt,
      Box.strictlyContainsPt, List.cons_ne_nil]
  have e4 : innerStep tbox ⟨sqRingTop, 3, none,
      ⟨[⟨1, 4⟩, ⟨2, 4⟩, ⟨2, 5⟩], Side.NONE, Side.NONE⟩⟩ =
      StepRes.next ⟨sqRingTop, 4, none,
        ⟨[⟨1, 4⟩, ⟨2, 4⟩, ⟨2, 5⟩, ⟨1, 5⟩], Side.NONE, Side.NONE⟩⟩ := by
    norm_num [innerStep, sqRingTop, tbox, Box.sideOf, pointLocation, Box.containsPt,
      Box.strictlyContainsPt, List.cons_ne_nil]
  have e5 : innerStep tbox ⟨sqRingTop, 4, none,
      ⟨[⟨1, 4⟩, ⟨2, 4⟩, ⟨2, 5⟩, ⟨1, 5⟩], Side.NONE, Side.NONE⟩⟩ =
      StepRes.next ⟨sqRingTop, 5, none, travSqTop⟩ := by
    norm_num [innerStep, sqRingTop, tbox, travSqTop, Box.sideOf, pointLocation, Box.containsPt,
      Box.strictlyContainsPt, List.cons_ne_nil]
  have e6 : innerStep tbox ⟨sqRingTop, 5, none, travSqTop⟩ =
      StepRes.stop ⟨sqRingTop, 5, none, travSqTop⟩ := by
    norm_num [innerStep, sqRingTop]
  calc innerLoop tbox 39 ⟨sqRingTop, 0, none, ⟨[], Side.NONE, Side.NONE⟩⟩
      = innerLoop tbox 38 ⟨sqRingTop, 1, none, ⟨[⟨1, 4⟩], Side.NONE, Side.NONE⟩⟩ :=
        innerLoop_next _ 38 _ _ e1
    _ = innerLoop tbox 37 ⟨sqRingTop, 2, none, ⟨[⟨1, 4⟩, ⟨2, 4⟩], Side.NONE, Side.NONE⟩⟩ :=
        innerLoop_next _ 37 _ _ e2
    _ = innerLoop tbox 36 ⟨sqRingTop, 3, none,
          ⟨[⟨1, 4⟩, ⟨2, 4⟩, ⟨2, 5⟩], Side.NONE, Side.NONE⟩⟩ :=
        innerLoop_next _ 36 _ _ e3
    _ = innerLoop tbox 35 ⟨sqRingTop, 4, none,
          ⟨[⟨1, 4⟩, ⟨2, 4⟩, ⟨2, 5⟩, ⟨1, 5⟩], Side.NONE, Side.NONE⟩⟩ :=
        innerLoop_next _ 35 _ _ e4
    _ = innerLoop tbox 34 ⟨sqRingTop, 5, none, travSqTop⟩ := innerLoop_next _ 34 _ _ e5
    _ = some ⟨sqRingTop, 5, none, travSqTop⟩ := innerLoop_stop _ 33 _ _ e6

set_option maxHeartbeats 1000000 in
theorem walkEval_sqTop : walkRing 40 sqRingTop true true tgT [[]] = some [[⟨0, 1/9, 0⟩]] := by
  have hb : tgT.gridCell 1 1 = tbox := by
    norm_num [SubGrid.gridCell, tgT, tbox, bigPad]
  have h2 : innerLoop (tgT.gridCell 1 1) 39 ⟨sqRingTop, 0, none, ⟨[], Side.NONE, Side.NONE⟩⟩ =
      some ⟨sqRingTop, 5, none, travSqTop⟩ := by rw [hb]; exact innerEval_sqTop
  have hop : outerProcess tgT ⟨sqRingTop, 0, 1, 1, none, []⟩ ⟨sqRingTop, 5, none, travSqTop⟩ =
      ⟨sqRingTop, 5, 1, 1, none, [((1, 1), ⟨tbox, [travSqTop]⟩)]⟩ := by
    norm_num +decide [outerProcess, hb, travSqTop, sqRingTop, tbox, pointLocation,
      Box.containsPt, Box.strictlyContainsPt, insertTraversal, List.cons_ne_nil, List.getLastI]
  have hout : outerLoop tgT 40 ⟨sqRingTop, 0, 1, 1, none, []⟩ =
      some [((1, 1), ⟨tbox, [travSqTop]⟩)] := by
    calc outerLoop tgT 40 ⟨sqRingTop, 0, 1, 1, none, []⟩
        = outerLoop tgT 39 (outerProcess tgT ⟨sqRingTop, 0, 1, 1, none, []⟩
            ⟨sqRingTop, 5, none, travSqTop⟩) :=
          outerLoop_enter tgT 39 _ _ (by norm_num [sqRingTop]) h2
      _ = outerLoop tgT 39 ⟨sqRingTop, 5, 1, 1, none, [((1, 1), ⟨tbox, [travSqTop]⟩)]⟩ := by
          rw [hop]
      _ = some [((1, 1), ⟨tbox, [travSqTop]⟩)] :=
          outerLoop_done tgT 38 _ (by norm_num [sqRingTop])
  have hagg : applyCell 1 1 tgT.subRows tgT.subCols tgT.colOff [[]]
      ((1, 1), ⟨tbox, [travSqTop]⟩) = [[⟨0, 1/9, 0⟩]] := by
    norm_num [applyCell, tgT, tbox, travSqTop, sqRingTop, colMapFull, validTraversals,
      LightTraversal.traversed, LightTraversal.isClosedRing, LightTraversal.multipleUnique,
      List.getLastI, List.headI, coverageFrac, closedRingCoveredFraction, polygonSignedArea,
      shoelaceAux, Box.area, Box.width, Box.height, addCoverage, addWinding,
      traversalCrosses, crossDelta, List.cons_ne_nil]
  rw [walkRing]
  norm_num [sqRingTop, List.headI,
    show tgT.getRow 4 = 1 by norm_num [SubGrid.getRow, tgT, Rat.floor],
    show tgT.getColumn 1 = 1 by norm_num [SubGrid.getColumn, tgT, Rat.floor]]
  rw [show ([⟨1, 4⟩, ⟨2, 4⟩, ⟨2, 5⟩, ⟨1, 5⟩, ⟨1, 4⟩] : List Coordinate) = sqRingTop from rfl]
  rw [hout]
  norm_num
  exact hagg

set_option maxHeartbeats 1000000 in
theorem processPolyEval_sq36 (id : Int) :
    processPoly 40 fg36 ⟨⟨sqRing, true⟩, []⟩ id = some ([], [⟨2, 1, 1/9, id⟩]) := by
  have hshrink : shrinkToFit ⟨0, 0, 3, 6, 3, 3, 1, 2⟩ ⟨1, 1, 2, 2⟩ = tgB := by
    norm_num [shrinkToFit, tgB, Rat.floor, Rat.ceil, show Int.toNat 2 = 2 by decide]
  have hwalk : walkRing 40 sqRing true true tgB [[]] = some [[⟨0, 1/9, 0⟩]] :=
    walkEval_sq_gen tgB (by norm_num [SubGrid.gridCell, tgB, ubox, bigPad])
      (by norm_num [SubGrid.getRow, tgB, Rat.floor])
      (by norm_num [SubGrid.getColumn, tgB, Rat.floor]) rfl rfl rfl
  have hsweep : sweepAll tgB.rowOff id [[⟨0, 1/9, 0⟩]] = ([], [⟨2, 1, 1/9, id⟩]) := by
    norm_num [sweepAll, tgB, sweepRow, List.insertionSort, List.orderedInsert, mergeCols,
      mergeInto, sweepStep, tol6, List.cons_ne_nil, List.range_succ, List.range_zero]
  rw [processPoly]
  norm_num +decide [sqRing, ringBBox, fg36, Box.intersectsBox, Box.intersectionBox,
    Box.containsBox, Box.expandToInclude, hshrink, List.cons_ne_nil]
  rw [show List.replicate tgB.subRows ([] : List BoundaryCellRecord) = [[]] from rfl,
    show ([⟨1, 1⟩, ⟨2, 1⟩, ⟨2, 2⟩, ⟨1, 2⟩, ⟨1, 1⟩] : List Coordinate) = sqRing from rfl, hwalk]
  norm_num [walkHoles]
  exact hsweep

set_option maxHeartbeats 1000000 in
theorem processPolyEval_sqTop (id : Int) :
    processPoly 40 fg36 ⟨⟨sqRingTop, true⟩, []⟩ id = some ([], [⟨1, 1, 1/9, id⟩]) := by
  have hshrink : shrinkToFit ⟨0, 0, 3, 6, 3, 3, 1, 2⟩ ⟨1, 4, 2, 5⟩ = tgT := by
    norm_num [shrinkToFit, tgT, Rat.floor, Rat.ceil, show Int.toNat 2 = 2 by decide]
  have hsweep : sweepAll tgT.rowOff id [[⟨0, 1/9, 0⟩]] = ([], [⟨1, 1, 1/9, id⟩]) := by
    norm_num [sweepAll, tgT, sweepRow, List.insertionSort, List.orderedInsert, mergeCols,
      mergeInto, sweepStep, tol6, List.cons_ne_nil, List.range_succ, List.range_zero]
  rw [processPoly]
  norm_num +decide [sqRingTop, ringBBox, fg36, Box.intersectsBox, Box.intersectionBox,
    Box.containsBox, Box.expandToInclude, hshrink, List.cons_ne_nil]
  rw [show List.replicate tgT.subRows ([] : List BoundaryCellRecord) = [[]] from rfl,
    show ([⟨1, 4⟩, ⟨2, 4⟩, ⟨2, 5⟩, ⟨1, 5⟩, ⟨1, 4⟩] : List Coordinate) = sqRingTop from rfl,
    walkEval_sqTop]
  norm_num [walkHoles]
  exact hsweep

set_option maxHeartbeats 1000000 in
theorem procEval_dup : processGeom 40 fg3 1 ([], []) dupMulti =
    some (([], [⟨1, 1, 1/9, 1⟩, ⟨1, 1, 1/9, 1⟩]), false) := by
  norm_num [processGeom, processGeomList, dupMulti, sqPoly, processPolyEval_sq 1]

set_option maxHeartbeats 1000000 in
theorem scanEval_dup : scanlineBurn 40 [WkbSlot.geom false dupMulti] 0 0 3 3 1 1 =
    some ⟨[], [⟨1, 1, 1/9, 1⟩, ⟨1, 1, 1/9, 1⟩], []⟩ := by
  rw [scanlineBurn]
  norm_num
  rw [show (⟨0, 0, 3, 3, 3, 3, 1, 1⟩ : FullGrid) = fg3 from rfl]
  norm_num [burnSlots, procEval_dup]

set_option maxHeartbeats 1000000 in
theorem procEval_throw : processGeom 40 fg3 1 ([], []) throwingMulti =
    some (([], [⟨1, 1, 1/9, 1⟩]), true) := by
  norm_num [processGeom, processGeomList, throwingMulti, sqPoly, processPolyEval_sq 1]

set_option maxHeartbeats 1000000 in
theorem scanEval_throw : scanlineBurn 40 [WkbSlot.geom false throwingMulti] 0 0 3 3 1 1 =
    some ⟨[], [⟨1, 1, 1/9, 1⟩], [Warning.computeFail 1]⟩ := by
  rw [scanlineBurn]
  norm_num
  rw [show (⟨0, 0, 3, 3, 3, 3, 1, 1⟩ : FullGrid) = fg3 from rfl]
  norm_num [burnSlots, procEval_throw]

set_option maxHeartbeats 1000000 in
theorem scanEval_rising : scanlineBurn 40 [WkbSlot.geom false risingMulti] 0 0 3 6 1 2 =
    some ⟨[], [⟨2, 1, 1/9, 1⟩, ⟨1, 1, 1/9, 1⟩], []⟩ := by
  have hproc : processGeom 40 fg36 1 ([], []) risingMulti =
      some (([], [⟨2, 1, 1/9, 1⟩, ⟨1, 1, 1/9, 1⟩]), false) := by
    norm_num [processGeom, processGeomList, risingMulti, sqPoly, sqPolyTop,
      processPolyEval_sq36 1, processPolyEval_sqTop 1]
  rw [scanlineBurn]
  norm_num
  rw [show (⟨0, 0, 3, 6, 3, 3, 1, 2⟩ : FullGrid) = fg36 from rfl]
  norm_num [burnSlots, hproc]

set_option maxHeartbeats 1000000 in
theorem scanEval_single : scanlineBurn 40 [WkbSlot.geom false sqPoly] 0 0 3 3 1 1 =
    some ⟨[], [⟨1, 1, 1/9, 1⟩], []⟩ := by
  have hproc : processGeom 40 fg3 1 ([], []) sqPoly = some (([], [⟨1, 1, 1/9, 1⟩]), false) := by
    norm_num [processGeom, sqPoly, processPolyEval_sq 1]
  rw [scanlineBurn]
  norm_num
  rw [show (⟨0, 0, 3, 3, 3, 3, 1, 1⟩ : FullGrid) = fg3 from rfl]
  norm_num [burnSlots, hproc]


/-- C10: a ring with fewer than 4 coordinates makes `walk_ring` return
immediately, leaving the per-row accumulator `row_data` unchanged — no
coverage, no winding, hence no runs or edges — whatever the other
arguments are. -/
theorem walkRing_degenerate_id (fuel : Nat) (coords : List Coordinate)
    (isCCW isExterior : Bool) (g : SubGrid) (rd : RowData)
    (h : coords.length < 4) :
    walkRing fuel coords isCCW isExterior g rd = some rd := by
  unfold walkRing
  simp [h]

/-- Witness for C10 at a concrete 3-point ring. -/
theorem walkRing_degenerate_id_witness :
    ([(⟨0, 0⟩ : Coordinate), ⟨1, 0⟩, ⟨0, 1⟩].length < 4) ∧
    walkRing 3 [⟨0, 0⟩, ⟨1, 0⟩, ⟨0, 1⟩] true true
      ⟨0, 0, 1, 1, 1, 1, 1, 1, 0, 0⟩ [[]] = some [[]] :=
  ⟨by decide, walkRing_degenerate_id 3 _ true true _ _ (by decide)⟩

/-- C2: one step of the winding sweep over a merged record `mc`:
(a) when `winding ≠ 0`, `prev_col > −2` and `mc.col > prev_col + 1`, the
interior run `(row, prev_col+2, mc.col, id)` is emitted, covering (1-based)
exactly the cells strictly between the two boundary cells;
(b) with `tol = 1e-6`, coverage in `(tol, 1−tol)` emits the edge
`(row, mc.col+1, coverage, id)`, coverage `≥ 1−tol` emits the degenerate run
`(row, mc.col+1, mc.col+1, id)`, and coverage `≤ tol` emits nothing;
(c) winding is then incremented by `mc.winding_delta` and `prev_col`
becomes `mc.col`. -/
theorem sweepStep_spec (fullRow id : Int) (st : SweepState) (mc : BoundaryCellRecord) :
    (sweepStep fullRow id st mc =
      ⟨st.winding + mc.windingDelta, mc.col,
        (if st.winding ≠ 0 ∧ st.prevCol > -2 ∧ mc.col > st.prevCol + 1 then
            st.runs ++ [⟨fullRow, st.prevCol + 2, mc.col, id⟩]
          else st.runs) ++
          (if mc.coverage ≥ 1 - tol6 then [⟨fullRow, mc.col + 1, mc.col + 1, id⟩] else []),
        st.edges ++
          (if tol6 < mc.coverage ∧ mc.coverage < 1 - tol6 then
            [⟨fullRow, mc.col + 1, mc.coverage, id⟩]
          else [])⟩) ∧
    (∀ c : Int, st.prevCol + 2 ≤ c ∧ c ≤ mc.col ↔ st.prevCol + 1 < c ∧ c < mc.col + 1) ∧
    (mc.coverage ≤ tol6 →
      (sweepStep fullRow id st mc).runs =
        (if st.winding ≠ 0 ∧ st.prevCol > -2 ∧ mc.col > st.prevCol + 1 then
            st.runs ++ [⟨fullRow, st.prevCol + 2, mc.col, id⟩]
          else st.runs) ∧
      (sweepStep fullRow id st mc).edges = st.edges) := by
  have htol : tol6 < 1 - tol6 := by norm_num [tol6]
  have hc1 : st.prevCol + 1 + 1 = st.prevCol + 2 := by ring
  have hc2 : mc.col - 1 + 1 = mc.col := by ring
  refine ⟨?_, fun c => by omega, fun hle => ?_⟩
  · unfold sweepStep
    rw [hc1, hc2]
    by_cases h2 : mc.coverage > tol6 ∧ mc.coverage < 1 - tol6
    · have h3 : ¬ mc.coverage ≥ 1 - tol6 := not_le.mpr h2.2
      simp [h2, h3]
    · by_cases h3 : mc.coverage ≥ 1 - tol6 <;> simp [h2, h3]
  · have h2 : ¬ (mc.coverage > tol6 ∧ mc.coverage < 1 - tol6) := fun hc =>
      absurd hle (not_le.mpr hc.1)
    have h3 : ¬ mc.coverage ≥ 1 - tol6 := fun hc =>
      absurd hle (not_le.mpr (lt_of_lt_of_le htol hc))
    unfold sweepStep
    rw [hc1, hc2]
    simp [h2, h3]

/-- Witness for C2 at a concrete state: coverage 0 emits nothing for the
cell while the pending interior run is still emitted. -/
theorem sweepStep_spec_witness :
    ((0 : ℚ) ≤ tol6) ∧
    ((sweepStep 3 7 ⟨1, 0, [], []⟩ ⟨5, 0, 2⟩).runs = [⟨3, 2, 5, 7⟩] ∧
      (sweepStep 3 7 ⟨1, 0, [], []⟩ ⟨5, 0, 2⟩).edges = []) := by
  refine ⟨by norm_num [tol6], ?_⟩
  have h := (sweepStep_spec 3 7 ⟨1, 0, [], []⟩ ⟨5, 0, 2⟩).2.2 (by norm_num [tol6])
  refine ⟨?_, h.2⟩
  rw [h.1]
  norm_num

/-- C3 (amended): under the §4.2 contract, `analytical_covered_fraction`
computes the CW arc from the exit perimeter distance back to the entry one
as `exit − entry` when `exit > entry`, as `perim − entry + exit` when
`entry > exit` (tolerance 1e-12); when equal within 1e-12 it returns
`|shoelace(coords, closed if necessary)| / cell_area`; otherwise it inserts
exactly the corners whose CW distance from the exit lies strictly (with the
1e-12 tolerance) in `(0, arc)`, ordered by increasing CW distance, closes
the polygon `coords ++ corners ++ [coords.front]`, and returns
`|signed_area| / cell_area`, a nonnegative value.  (The original claim's
"a covered fraction in [0, 1]" is dropped: the counterexample shows the
result can exceed 1 for a self-overlapping traversal admitted by the
contract.) -/
theorem analyticalCoveredFraction_spec (b : Box) (coords : List Coordinate)
    (hw : 0 < b.width) (hh : 0 < b.height) (hlen : 2 ≤ coords.length)
    (hfst : onBoundary b coords.headI) (hlst : onBoundary b coords.getLastI)
    (hall : ∀ p ∈ coords, b.containsPt p) :
    (perimeterDistance b coords.getLastI > perimeterDistance b coords.headI + eps12 →
      analyticalCoveredFraction b coords =
        acfArcCase b coords (perimeterDistance b coords.getLastI)
          (perimeterDistance b coords.getLastI - perimeterDistance b coords.headI)) ∧
    (perimeterDistance b coords.headI > perimeterDistance b coords.getLastI + eps12 →
      analyticalCoveredFraction b coords =
        acfArcCase b coords (perimeterDistance b coords.getLastI)
          (b.perimeter - perimeterDistance b coords.headI +
            perimeterDistance b coords.getLastI)) ∧
    (¬ perimeterDistance b coords.getLastI > perimeterDistance b coords.headI + eps12 →
      ¬ perimeterDistance b coords.headI > perimeterDistance b coords.getLastI + eps12 →
      analyticalCoveredFraction b coords =
        |polygonSignedArea (if coords.headI = coords.getLastI then coords
          else coords ++ [coords.headI])| / b.area) ∧
    (∀ arc : ℚ, ∃ cs : List (Coordinate × ℚ),
      List.Sorted tagLe cs ∧
      (∀ p : Coordinate × ℚ,
        p ∈ cs ↔ p ∈ (cornerTags b).map (fun q =>
            (q.1, cwFromExit b.perimeter (perimeterDistance b coords.getLastI) q.2)) ∧
          eps12 < p.2 ∧ p.2 < arc - eps12) ∧
      acfArcCase b coords (perimeterDistance b coords.getLastI) arc =
        |polygonSignedArea (coords ++ cs.map Prod.fst ++ [coords.headI])| / b.area) ∧
    0 ≤ analyticalCoveredFraction b coords := by
  have hA : 0 < b.area := mul_pos hw hh
  have hA' : ¬ b.area ≤ 0 := not_le.mpr hA
  have hL : ¬ coords.length < 2 := not_lt.mpr hlen
  obtain ⟨c0, tl, rfl⟩ : ∃ c0 tl, coords = c0 :: tl := by
    cases coords with
    | nil => simp at hlen
    | cons c0 tl => exact ⟨c0, tl, rfl⟩
  refine ⟨fun h => ?_, fun h => ?_, fun h1 h2 => ?_, fun arc => ?_, ?_⟩
  · rw [analyticalCoveredFraction, if_neg hA', if_neg hL, if_pos h]
  · rw [analyticalCoveredFraction, if_neg hA', if_neg hL]
    have h1 : ¬ perimeterDistance b (c0 :: tl).getLastI >
        perimeterDistance b (c0 :: tl).headI + eps12 := by
      simp only [gt_iff_lt, not_lt] at h ⊢
      have he : (0 : ℚ) < eps12 := by norm_num [eps12]
      linarith
    rw [if_neg h1, if_pos h]
  · rw [analyticalCoveredFraction, if_neg hA', if_neg hL, if_neg h1, if_neg h2]
  · refine ⟨(((cornerTags b).map (fun q =>
        (q.1, cwFromExit b.perimeter (perimeterDistance b (c0 :: tl).getLastI) q.2))).filter
        (fun p => decide (eps12 < p.2 ∧ p.2 < arc - eps12))).insertionSort tagLe,
      List.sorted_insertionSort tagLe _, fun p => ?_, ?_⟩
    · rw [List.mem_insertionSort, List.mem_filter]
      simp
    · rw [acfArcCase]
      simp only [List.cons_append, List.headI]
  · rw [analyticalCoveredFraction, if_neg hA', if_neg hL]
    have habs : ∀ q : List Coordinate, 0 ≤ |polygonSignedArea q| / b.area := fun q =>
      div_nonneg (abs_nonneg _) (le_of_lt hA)
    have harc : ∀ x a : ℚ, 0 ≤ acfArcCase b (c0 :: tl) x a := by
      intro x a
      rw [acfArcCase]
      exact habs _
    simp only []
    by_cases hx : perimeterDistance b (c0 :: tl).getLastI >
        perimeterDistance b (c0 :: tl).headI + eps12
    · rw [if_pos hx]
      exact harc _ _
    · rw [if_neg hx]
      by_cases hy : perimeterDistance b (c0 :: tl).headI >
          perimeterDistance b (c0 :: tl).getLastI + eps12
      · rw [if_pos hy]
        exact harc _ _
      · rw [if_neg hy]
        exact habs _

unseal Rat.add Rat.mul Rat.inv Rat.sub in
/-- C3 counterexample: the ring running around the unit cell boundary twice
satisfies the §4.2 contract (length ≥ 2, first and last point on the cell
boundary, all intermediate points on the boundary), yet
`analytical_covered_fraction` returns 2, which is not a covered fraction in
[0, 1]. -/
theorem analyticalCoveredFraction_gt_one :
    (2 ≤ dblRing.length ∧ onBoundary unitBox dblRing.headI ∧
      onBoundary unitBox dblRing.getLastI ∧ ∀ p ∈ dblRing, unitBox.containsPt p) ∧
    analyticalCoveredFraction unitBox dblRing = 2 ∧
    ¬ analyticalCoveredFraction unitBox dblRing ≤ 1 := by
  exact ⟨by decide, by decide, by decide⟩

/-- C1 counterexample: the input geometry is a MULTIPOLYGON whose second
component throws during GEOS access.  The warning is emitted and the call
continues, but the edge emitted by the first component — appended before
the throw — remains in the output: the geometry whose processing threw
contributes records, refuting the claim that such a geometry contributes
no runs and no edges. -/
theorem scanlineBurn_throw_keeps_prior_output :
    scanlineBurn 40 [WkbSlot.geom false throwingMulti] 0 0 3 3 1 1 =
      some ⟨[], [⟨1, 1, 1/9, 1⟩], [Warning.computeFail 1]⟩ ∧
    ([⟨1, 1, 1/9, 1⟩] : List GridEdge) ≠ [] :=
  ⟨scanEval_throw, by simp⟩

/-- C1 (amended): a per-geometry GEOS throw emits a warning and processing
continues with the next geometry; results are appended per polygon
component, so a single-POLYGON geometry that throws contributes nothing,
and later components of a multi-part geometry are skipped — but components
of the same geometry completed before the throw keep their appended runs
and edges, since the C++ accumulators are mutated in place and the catch
does not roll them back. -/
theorem processGeom_throw_spec :
    (∀ (fuel : Nat) (fg : FullGrid) (id : Int) (acc : List GridRun × List GridEdge)
        (e : GeosErr),
      processGeom fuel fg id acc (Geom.poly (Except.error e)) = some (acc, true)) ∧
    (∀ (fuel : Nat) (fg : FullGrid) (id : Int) (acc r : List GridRun × List GridEdge)
        (g : Geom) (gs : GeomList),
      processGeom fuel fg id acc g = some (r, true) →
      processGeomList fuel fg id acc (GeomList.cons g gs) = some (r, true)) ∧
    (∀ (fuel : Nat) (fg : FullGrid) (k : Nat) (rest : List WkbSlot) (out : BurnOutput)
        (g : Geom) (acc1 : List GridRun × List GridEdge),
      processGeom fuel fg ((k : Int) + 1) (out.runs, out.edges) g = some (acc1, true) →
      burnSlots fuel fg k (WkbSlot.geom false g :: rest) out =
        burnSlots fuel fg (k + 1) rest
          ⟨acc1.1, acc1.2, out.warnings ++ [Warning.computeFail ((k : Int) + 1)]⟩) := by
  refine ⟨fun fuel fg id acc e => by simp [processGeom], ?_, ?_⟩
  · intro fuel fg id acc r g gs h
    simp [processGeomList, h]
  · intro fuel fg k rest out g acc1 h
    simp [burnSlots, h]

/-- Witness for C1 (amended): the throwing MULTIPOLYGON leads to a warning
for geometry 1, and the loop continues with its first component's edge kept
in the accumulators. -/
theorem processGeom_throw_spec_witness :
    burnSlots 40 fg3 0 [WkbSlot.geom false throwingMulti] ⟨[], [], []⟩ =
      burnSlots 40 fg3 1 [] ⟨[], [⟨1, 1, 1/9, 1⟩], [Warning.computeFail 1]⟩ :=
  processGeom_throw_spec.2.2 40 fg3 0 [] ⟨[], [], []⟩ throwingMulti
    ([], [⟨1, 1, 1/9, 1⟩]) procEval_throw

/-- The winding sum of one per-row record list at one column. -/
def rvWindingSum (rv : List BoundaryCellRecord) (col : Int) : Int :=
  ((rv.filter (fun rec => decide (rec.col = col))).map (fun rec => rec.windingDelta)).sum

/-- The coverage sum of one per-row record list at one column. -/
def rvCoverageSum (rv : List BoundaryCellRecord) (col : Int) : ℚ :=
  ((rv.filter (fun rec => decide (rec.col = col))).map (fun rec => rec.coverage)).sum

theorem windingSum_as_rv (rd : RowData) (subR : Nat) (col : Int) :
    windingSum rd subR col = rvWindingSum (rd.getD subR []) col := rfl

theorem coverageSum_as_rv (rd : RowData) (subR : Nat) (col : Int) :
    coverageSum rd subR col = rvCoverageSum (rd.getD subR []) col := rfl

theorem getD_set_self (rd : RowData) (i : Nat) (x : List BoundaryCellRecord)
    (h : i < rd.length) : (rd.set i x).getD i [] = x := by
  induction rd generalizing i with
  | nil => simp at h
  | cons a l ih =>
    cases i with
    | zero => simp
    | succ j =>
      simp only [List.set_cons_succ, List.getD_cons_succ]
      exact ih j (by simpa using h)

theorem addWinding_winding (rv : List BoundaryCellRecord) (col : Int) (d : Int) :
    rvWindingSum (addWinding rv col d) col = rvWindingSum rv col + d := by
  induction rv with
  | nil => simp [addWinding, rvWindingSum]
  | cons r rest ih =>
    by_cases h : r.col = col
    · simp [addWinding, h, rvWindingSum, List.filter]
      try ring
    · simp only [addWinding, if_neg h]
      simp only [rvWindingSum, List.filter] at ih ⊢
      simp [h, ih]
      try ring

theorem addWinding_coverage (rv : List BoundaryCellRecord) (col : Int) (d : Int) :
    rvCoverageSum (addWinding rv col d) col = rvCoverageSum rv col := by
  induction rv with
  | nil => simp [addWinding, rvCoverageSum]
  | cons r rest ih =>
    by_cases h : r.col = col
    · simp [addWinding, h, rvCoverageSum, List.filter]
    · simp only [addWinding, if_neg h]
      simp only [rvCoverageSum, List.filter] at ih ⊢
      simp [h, ih]

theorem addCoverage_winding (rv : List BoundaryCellRecord) (col col2 : Int) (v : ℚ) :
    rvWindingSum (addCoverage rv col v) col2 = rvWindingSum rv col2 := by
  induction rv with
  | nil =>
    by_cases h : col = col2 <;> simp [addCoverage, rvWindingSum, List.filter, h]
  | cons r rest ih =>
    by_cases h : r.col = col
    · by_cases h2 : r.col = col2 <;> simp [addCoverage, h, rvWindingSum, List.filter, h2, h ▸ h2]
    · simp only [addCoverage, if_neg h]
      by_cases h2 : r.col = col2 <;>
        simp only [rvWindingSum, List.filter] at ih ⊢ <;> simp [h2, ih]

theorem windingFold_sum (box : Box) (wf : Int) (col : Int)
    (ts : List LightTraversal) (rv : List BoundaryCellRecord) :
    rvWindingSum
      (ts.foldl (fun rv t =>
        if traversalCrosses box t then addWinding rv col (crossDelta box wf t) else rv) rv)
      col =
    rvWindingSum rv col + (ts.map (traversalWindingDelta box wf)).sum := by
  induction ts generalizing rv with
  | nil => simp
  | cons t rest ih =>
    by_cases h : traversalCrosses box t
    · simp only [List.foldl_cons, if_pos h, List.map_cons, List.sum_cons]
      rw [ih, addWinding_winding, traversalWindingDelta, if_pos h]
      ring
    · simp only [List.foldl_cons, if_neg h, List.map_cons, List.sum_cons]
      rw [ih, traversalWindingDelta, if_neg h]
      ring

theorem windingFold_coverage (box : Box) (wf : Int) (col : Int)
    (ts : List LightTraversal) (rv : List BoundaryCellRecord) :
    rvCoverageSum
      (ts.foldl (fun rv t =>
        if traversalCrosses box t then addWinding rv col (crossDelta box wf t) else rv) rv)
      col =
    rvCoverageSum rv col := by
  induction ts generalizing rv with
  | nil => simp
  | cons t rest ih =>
    by_cases h : traversalCrosses box t
    · simp only [List.foldl_cons, if_pos h]
      rw [ih, addWinding_coverage]
    · simp only [List.foldl_cons, if_neg h]
      rw [ih]

/-- C4: during per-cell aggregation, (a) a proper valid traversal adds a
winding delta iff its entry and exit y strictly straddle the cell's
y-midpoint, the delta being `−1` for a downward crossing (`entry_y > y_mid`)
and `+1` for an upward one, multiplied by the ring's sign factor; (b) a
closed-in-cell ring (not a proper traversal) contributes no winding; (c) the
aggregation of one cell adds the sum of its valid traversals' deltas to the
row record of its mapped column — for every column class, padding columns
included — and for padding columns the coverage total is left untouched. -/
theorem winding_delta_spec :
    (∀ (box : Box) (wf : Int) (t : LightTraversal),
      t.traversed = true → 2 ≤ t.coords.length →
      traversalWindingDelta box wf t =
        (if (t.coords.headI.y > (box.ymin + box.ymax) / 2 ∧
              t.coords.getLastI.y < (box.ymin + box.ymax) / 2) ∨
            (t.coords.headI.y < (box.ymin + box.ymax) / 2 ∧
              t.coords.getLastI.y > (box.ymin + box.ymax) / 2) then
          (if t.coords.headI.y > (box.ymin + box.ymax) / 2 then -1 else 1) * wf
        else 0)) ∧
    (∀ (box : Box) (wf : Int) (t : LightTraversal),
      t.traversed = false → traversalWindingDelta box wf t = 0) ∧
    (∀ (cf : ℚ) (wf : Int) (subRows subCols colOff : Nat) (rd : RowData)
        (r c : Nat) (cr : CellRecord),
      1 ≤ r → r - 1 < subRows → r - 1 < rd.length →
      windingSum (applyCell cf wf subRows subCols colOff rd ((r, c), cr)) (r - 1)
          (colMapFull colOff subCols c).1 =
        windingSum rd (r - 1) (colMapFull colOff subCols c).1 +
          ((validTraversals cr).map (traversalWindingDelta cr.box wf)).sum ∧
      ((colMapFull colOff subCols c).2 = false →
        coverageSum (applyCell cf wf subRows subCols colOff rd ((r, c), cr)) (r - 1)
            (colMapFull colOff subCols c).1 =
          coverageSum rd (r - 1) (colMapFull colOff subCols c).1)) := by
  refine ⟨?_, ?_, ?_⟩
  · intro box wf t hT hlen
    rw [traversalWindingDelta, traversalCrosses, hT]
    simp only [Bool.true_eq_false, if_false, if_neg (not_lt.mpr hlen)]
    by_cases hS : (t.coords.headI.y > (box.ymin + box.ymax) / 2 ∧
        t.coords.getLastI.y < (box.ymin + box.ymax) / 2) ∨
        (t.coords.headI.y < (box.ymin + box.ymax) / 2 ∧
          t.coords.getLastI.y > (box.ymin + box.ymax) / 2)
    · simp [hS, crossDelta]
    · simp [hS]
  · intro box wf t hT
    rw [traversalWindingDelta, traversalCrosses, hT]
    simp
  · intro cf wf subRows subCols colOff rd r c cr hr hsub hlen
    have hr1 : ¬ r < 1 := not_lt.mpr hr
    have hsub1 : ¬ r - 1 ≥ subRows := not_le.mpr hsub
    rw [applyCell]
    simp only [hr1, if_false, hsub1]
    by_cases hv : validTraversals cr = []
    · simp [hv]
    · simp only [hv, if_neg hv, if_false]
      rw [windingSum_as_rv, windingSum_as_rv, coverageSum_as_rv, coverageSum_as_rv,
        getD_set_self _ _ _ hlen]
      constructor
      · rw [windingFold_sum]
        congr 1
        by_cases hf : (if (colMapFull colOff subCols c).2 then coverageFrac cr.box
            (validTraversals cr) else 0) ≠ 0
        · rw [if_pos hf, addCoverage_winding]
        · rw [if_neg hf]
      · intro hpad
        rw [windingFold_coverage]
        simp [hpad]

unseal Rat.add Rat.mul Rat.inv Rat.sub in
/-- Witness for C4: a single proper traversal crossing the midpoint of the
cell `(0,0)-(2,2)` downward through a padding column adds winding `−1` and
no coverage. -/
theorem winding_delta_spec_witness :
    ((⟨[⟨0, 2⟩, ⟨0, 0⟩], Side.LEFT, Side.BOTTOM⟩ : LightTraversal).traversed = true ∧
      2 ≤ ([⟨0, 2⟩, ⟨0, 0⟩] : List Coordinate).length ∧ 1 ≤ 1 ∧ 1 - 1 < 1 ∧
      1 - 1 < ([[]] : RowData).length) ∧
    windingSum (applyCell 1 1 1 1 0 [[]]
        ((1, 0), ⟨⟨0, 0, 2, 2⟩, [⟨[⟨0, 2⟩, ⟨0, 0⟩], Side.LEFT, Side.BOTTOM⟩]⟩)) (1 - 1)
        (colMapFull 0 1 0).1 =
      windingSum [[]] (1 - 1) (colMapFull 0 1 0).1 +
        ((validTraversals ⟨⟨0, 0, 2, 2⟩, [⟨[⟨0, 2⟩, ⟨0, 0⟩], Side.LEFT, Side.BOTTOM⟩]⟩).map
          (traversalWindingDelta (⟨0, 0, 2, 2⟩ : Box) 1)).sum ∧
    windingSum (applyCell 1 1 1 1 0 [[]]
        ((1, 0), ⟨⟨0, 0, 2, 2⟩, [⟨[⟨0, 2⟩, ⟨0, 0⟩], Side.LEFT, Side.BOTTOM⟩]⟩)) (1 - 1)
        (colMapFull 0 1 0).1 = -1 :=
  ⟨by decide,
    (winding_delta_spec.2.2 1 1 1 1 0 [[]] 1 0
      ⟨⟨0, 0, 2, 2⟩, [⟨[⟨0, 2⟩, ⟨0, 0⟩], Side.LEFT, Side.BOTTOM⟩]⟩
      (by decide) (by decide) (by decide)).1,
    by decide⟩

/-- C6 counterexample: a MULTIPOLYGON of two identical components (the WKB
reader performs no validity check) emits the same edge cell twice under the
same id and row, so for this input the column sets of the edges with one id
and row are not pairwise disjoint. -/
theorem scanlineBurn_dup_components_overlap :
    scanlineBurn 40 [WkbSlot.geom false dupMulti] 0 0 3 3 1 1 =
      some ⟨[], [⟨1, 1, 1/9, 1⟩, ⟨1, 1, 1/9, 1⟩], []⟩ ∧
    ¬ List.Pairwise (fun a b : GridEdge => a.id = b.id → a.row = b.row → a.col ≠ b.col)
        [⟨1, 1, 1/9, 1⟩, ⟨1, 1, 1/9, 1⟩] :=
  ⟨scanEval_dup, by decide⟩

/-- C7 counterexample: a MULTIPOLYGON whose first component lies in grid
row 2 and whose second lies in row 1 emits its edges with rows 2, 1 under
one id: within one polygon (one geometry id) the rows do not appear in
increasing row index. -/
theorem scanlineBurn_multi_rows_reorder :
    scanlineBurn 40 [WkbSlot.geom false risingMulti] 0 0 3 6 1 2 =
      some ⟨[], [⟨2, 1, 1/9, 1⟩, ⟨1, 1, 1/9, 1⟩], []⟩ ∧
    ¬ List.Pairwise (fun a b : GridEdge => a.id = b.id → a.row ≤ b.row)
        [⟨2, 1, 1/9, 1⟩, ⟨1, 1, 1/9, 1⟩] :=
  ⟨scanEval_rising, by decide⟩

mutual
theorem processGeom_prepend (fuel : Nat) (fg : FullGrid) (id : Int) :
    ∀ (g : Geom) (acc : List GridRun × List GridEdge),
      processGeom fuel fg id acc g =
        (processGeom fuel fg id ([], []) g).map
          (fun r => ((acc.1 ++ r.1.1, acc.2 ++ r.1.2), r.2))
  | Geom.nonPoly, acc => by simp [processGeom]
  | Geom.poly (Except.error e), acc => by simp [processGeom]
  | Geom.poly (Except.ok d), acc => by
    cases h : processPoly fuel fg d id with
    | none => simp [processGeom, h]
    | some re => simp [processGeom, h]
  | Geom.multi gs, acc => by
    have h := processGeomList_prepend fuel fg id gs acc
    simpa [processGeom] using h

theorem processGeomList_prepend (fuel : Nat) (fg : FullGrid) (id : Int) :
    ∀ (gs : GeomList) (acc : List GridRun × List GridEdge),
      processGeomList fuel fg id acc gs =
        (processGeomList fuel fg id ([], []) gs).map
          (fun r => ((acc.1 ++ r.1.1, acc.2 ++ r.1.2), r.2))
  | GeomList.nil, acc => by simp [processGeomList]
  | GeomList.cons g gs, acc => by
    simp only [processGeomList]
    rw [processGeom_prepend fuel fg id g acc]
    cases hb : processGeom fuel fg id ([], []) g with
    | none => simp
    | some r =>
      obtain ⟨r0, thr⟩ := r
      cases thr with
      | true => simp
      | false =>
        simp only [Option.map_some', if_false, Bool.false_eq_true]
        rw [processGeomList_prepend fuel fg id gs (acc.1 ++ r0.1, acc.2 ++ r0.2),
          processGeomList_prepend fuel fg id gs r0]
        cases processGeomList fuel fg id ([], []) gs with
        | none => simp
        | some q => simp [List.append_assoc]
end

/-- C8: processing a MULTIPOLYGON (or GEOMETRYCOLLECTION) appends, per
component in order, exactly what processing that component alone with the
same id appends: the output is the concatenation — hence the multiset
union — of the components' separate rasterizations.  Each component gets
its own subgrid, row table and sweep, so this holds for every component
list, in particular for disjoint components as the claim states. -/
theorem multipolygon_components_independent (fuel : Nat) (fg : FullGrid) (id : Int) :
    ∀ (gs : GeomList) (out : List GridRun × List GridEdge),
      processGeom fuel fg id ([], []) (Geom.multi gs) = some (out, false) →
      ∃ parts : List (List GridRun × List GridEdge),
        List.Forall₂ (fun g p => processGeom fuel fg id ([], []) g = some (p, false))
          gs.toList parts ∧
        out.1 = (parts.map Prod.fst).join ∧ out.2 = (parts.map Prod.snd).join
  | GeomList.nil, out, h => by
    simp only [processGeom, processGeomList, Option.some.injEq, Prod.mk.injEq] at h
    refine ⟨[], ?_, ?_, ?_⟩ <;> simp [GeomList.toList, ← h.1]
  | GeomList.cons g gs, out, h => by
    simp only [processGeom, processGeomList] at h
    cases hg : processGeom fuel fg id ([], []) g with
    | none => rw [hg] at h; simp at h
    | some r =>
      obtain ⟨r0, thr⟩ := r
      cases thr with
      | true => rw [hg] at h; simp at h
      | false =>
        rw [hg] at h
        simp only [if_false, Bool.false_eq_true] at h
        rw [processGeomList_prepend fuel fg id gs r0] at h
        cases hq : processGeomList fuel fg id ([], []) gs with
        | none => rw [hq] at h; simp at h
        | some q =>
          obtain ⟨q0, qthr⟩ := q
          rw [hq] at h
          simp only [Option.map_some', Option.some.injEq, Prod.mk.injEq] at h
          obtain ⟨hout, hthr⟩ := h
          cases qthr with
          | true => simp at hthr
          | false =>
            obtain ⟨parts, hall, h1, h2⟩ :=
              multipolygon_components_independent fuel fg id gs q0
                (by simpa [processGeom] using hq)
            refine ⟨r0 :: parts, ?_, ?_, ?_⟩
            · simp only [GeomList.toList]
              exact List.Forall₂.cons hg hall
            · simp [← hout, h1]
            · simp [← hout, h2]

/-- Witness for C8 at a two-component MULTIPOLYGON: the output is the
concatenation of the two components' separate outputs. -/
theorem multipolygon_components_independent_witness :
    ∃ parts : List (List GridRun × List GridEdge),
      List.Forall₂ (fun g p => processGeom 40 fg3 1 ([], []) g = some (p, false))
        (GeomList.cons sqPoly (GeomList.cons sqPoly GeomList.nil)).toList parts ∧
      (([] : List GridRun), ([⟨1, 1, 1/9, 1⟩, ⟨1, 1, 1/9, 1⟩] : List GridEdge)).1 =
        (parts.map Prod.fst).join ∧
      (([] : List GridRun), ([⟨1, 1, 1/9, 1⟩, ⟨1, 1, 1/9, 1⟩] : List GridEdge)).2 =
        (parts.map Prod.snd).join :=
  multipolygon_components_independent 40 fg3 1
    (GeomList.cons sqPoly (GeomList.cons sqPoly GeomList.nil))
    ([], [⟨1, 1, 1/9, 1⟩, ⟨1, 1, 1/9, 1⟩]) procEval_dup

theorem dtsRowAux_prepend (fr : Int) (co : Nat) (id : Int) (tol : ℚ) :
    ∀ (ws : List ℚ) (j : Nat) (s : Int) (res : SparseResult),
      dtsRowAux fr co id tol j s ws res =
        ⟨res.runs ++ (dtsRowAux fr co id tol j s ws ⟨[], []⟩).runs,
         res.edges ++ (dtsRowAux fr co id tol j s ws ⟨[], []⟩).edges⟩
  | [], j, s, res => by
    by_cases h : s ≥ 0 <;> simp [dtsRowAux, h]
  | w :: ws, j, s, res => by
    by_cases h0 : w ≤ 0
    · simp only [dtsRowAux, if_pos h0]
      by_cases h : s ≥ 0
      · simp only [h, if_true]
        conv_rhs => rw [dtsRowAux_prepend fr co id tol ws (j + 1) (-1)]
        rw [dtsRowAux_prepend fr co id tol ws (j + 1) (-1)]
        simp
      · simp only [h, if_false]
        rw [dtsRowAux_prepend fr co id tol ws (j + 1) (-1) res]
    · simp only [dtsRowAux, if_neg h0]
      by_cases h1 : w ≥ 1 - tol
      · simp only [h1, if_true]
        rw [dtsRowAux_prepend fr co id tol ws (j + 1)
          (if s < 0 then (co : Int) + j + 1 else s) res]
      · simp only [h1, if_false]
        by_cases h : s ≥ 0
        · simp only [h, if_true]
          conv_rhs => rw [dtsRowAux_prepend fr co id tol ws (j + 1) (-1)]
          rw [dtsRowAux_prepend fr co id tol ws (j + 1) (-1)]
          simp
        · simp only [h, if_false]
          conv_rhs => rw [dtsRowAux_prepend fr co id tol ws (j + 1) (-1)]
          rw [dtsRowAux_prepend fr co id tol ws (j + 1) (-1)]
          simp

theorem dtsRowAux_edges (fr : Int) (co : Nat) (id : Int) (tol : ℚ) :
    ∀ (ws : List ℚ) (j : Nat) (s : Int),
      (dtsRowAux fr co id tol j s ws ⟨[], []⟩).edges = specRowEdges tol fr co id j ws
  | [], j, s => by
    by_cases h : s ≥ 0 <;> simp [dtsRowAux, h, specRowEdges]
  | w :: ws, j, s => by
    by_cases h0 : w ≤ 0
    · have hw : ¬ (0 < w ∧ w < 1 - tol) := fun hc => absurd h0 (not_le.mpr hc.1)
      simp only [dtsRowAux, if_pos h0, specRowEdges, hw, if_false, List.nil_append]
      by_cases h : s ≥ 0
      · simp only [h, if_true]
        rw [dtsRowAux_prepend]
        simp [dtsRowAux_edges fr co id tol ws (j + 1) (-1)]
      · simp only [h, if_false]
        exact dtsRowAux_edges fr co id tol ws (j + 1) (-1)
    · by_cases h1 : w ≥ 1 - tol
      · have hw : ¬ (0 < w ∧ w < 1 - tol) := fun hc => absurd h1 (not_le.mpr hc.2)
        simp only [dtsRowAux, if_neg h0, h1, if_true, specRowEdges, hw, if_false,
          List.nil_append]
        exact dtsRowAux_edges fr co id tol ws (j + 1) _
      · have hw : 0 < w ∧ w < 1 - tol := ⟨not_le.mp h0, not_le.mp h1⟩
        simp only [dtsRowAux, if_neg h0, h1, if_false, specRowEdges, hw, if_true]
        by_cases h : s ≥ 0 <;> simp only [h, if_true, if_false] <;>
          rw [dtsRowAux_prepend] <;>
          simp [dtsRowAux_edges fr co id tol ws (j + 1) (-1)]

theorem notFull_of_nonpos {tol w : ℚ} (htol : 0 ≤ tol ∧ tol < 1) (h0 : w ≤ 0) :
    ¬ isFullB tol w = true := by
  simp only [isFullB, decide_eq_true_eq, not_le]
  have : 0 < 1 - tol := by linarith [htol.2]
  linarith

mutual
theorem dtsRowAux_runs_none (fr : Int) (co : Nat) (id : Int) (tol : ℚ)
    (htol : 0 ≤ tol ∧ tol < 1) :
    ∀ (ws : List ℚ) (j : Nat),
      (dtsRowAux fr co id tol j (-1) ws ⟨[], []⟩).runs = specRowRuns tol fr co id j ws
  | [], j => by simp [dtsRowAux, specRowRuns]
  | w :: ws, j => by
    by_cases h0 : w ≤ 0
    · simp only [dtsRowAux, if_pos h0, show ¬ ((-1 : Int) ≥ 0) by omega, if_false]
      rw [specRowRuns, if_neg (notFull_of_nonpos htol h0)]
      exact dtsRowAux_runs_none fr co id tol htol ws (j + 1)
    · by_cases h1 : w ≥ 1 - tol
      · have hfull : isFullB tol w = true := by
          simp [isFullB, h1]
        simp only [dtsRowAux, if_neg h0, h1, if_true, show ((-1 : Int) < 0) by omega]
        rw [dtsRowAux_runs_some fr co id tol htol ws (j + 1) ((co : Int) + j + 1) (by omega)]
        simp only [specRowRuns, hfull, if_true]
        have harith : (co : Int) + ((j : Int) + 1) + ((ws.takeWhile (isFullB tol)).length : Int) =
            (co : Int) + (j : Int) + 1 + ((ws.takeWhile (isFullB tol)).length : Int) := by ring
        push_cast
        rw [harith]
      · have hfull : ¬ isFullB tol w = true := by simpa [isFullB] using h1
        simp only [dtsRowAux, if_neg h0, h1, if_false, show ¬ ((-1 : Int) ≥ 0) by omega]
        rw [specRowRuns, if_neg hfull, dtsRowAux_prepend]
        simp [dtsRowAux_runs_none fr co id tol htol ws (j + 1)]

theorem dtsRowAux_runs_some (fr : Int) (co : Nat) (id : Int) (tol : ℚ)
    (htol : 0 ≤ tol ∧ tol < 1) :
    ∀ (ws : List ℚ) (j : Nat) (s : Int), 0 ≤ s →
      (dtsRowAux fr co id tol j s ws ⟨[], []⟩).runs =
        ⟨fr, s, (co : Int) + j + (ws.takeWhile (isFullB tol)).length, id⟩ ::
          specRowRuns tol fr co id (j + (ws.takeWhile (isFullB tol)).length)
            (ws.drop (ws.takeWhile (isFullB tol)).length)
  | [], j, s, hs => by
    simp [dtsRowAux, show s ≥ 0 by omega, specRowRuns]
  | w :: ws, j, s, hs => by
    by_cases h0 : w ≤ 0
    · have hfull := notFull_of_nonpos htol h0
      simp only [dtsRowAux, if_pos h0, show s ≥ 0 by omega, if_true]
      rw [List.takeWhile_cons, if_neg hfull]
      simp only [List.length_nil, List.drop_zero, Nat.add_zero, Int.ofNat_zero]
      rw [dtsRowAux_prepend]
      simp only [SparseResult.runs, List.nil_append, List.singleton_append]
      rw [dtsRowAux_runs_none fr co id tol htol ws (j + 1)]
      rw [specRowRuns, if_neg hfull]
      simp
    · by_cases h1 : w ≥ 1 - tol
      · have hfull : isFullB tol w = true := by simp [isFullB, h1]
        simp only [dtsRowAux, if_neg h0, h1, if_true, show ¬ (s < 0) by omega, if_false]
        rw [dtsRowAux_runs_some fr co id tol htol ws (j + 1) s hs]
        rw [List.takeWhile_cons, if_pos hfull]
        simp only [List.length_cons, List.drop_succ_cons]
        have e2 : j + 1 + (ws.takeWhile (isFullB tol)).length =
            j + ((ws.takeWhile (isFullB tol)).length + 1) := by omega
        push_cast
        have e1 : (co : Int) + ((j : Int) + 1) + ((ws.takeWhile (isFullB tol)).length : Int) =
            (co : Int) + (j : Int) + (((ws.takeWhile (isFullB tol)).length : Int) + 1) := by ring
        rw [e1, e2]
      · have hfull : ¬ isFullB tol w = true := by simpa [isFullB] using h1
        simp only [dtsRowAux, if_neg h0, h1, if_false, show s ≥ 0 by omega, if_true]
        rw [List.takeWhile_cons, if_neg hfull]
        simp only [List.length_nil, List.drop_zero, Nat.add_zero, Int.ofNat_zero]
        rw [dtsRowAux_prepend]
        simp only [SparseResult.runs, List.nil_append, List.singleton_append]
        rw [dtsRowAux_runs_none fr co id tol htol ws (j + 1)]
        rw [specRowRuns, if_neg hfull]
        simp
end

/-- C9: `dense_to_sparse` emits, per row scanned left to right, one run for
each maximal consecutive span of cells with `w ≥ 1 − tol` (a span is closed
by a cell with `w ≤ 0` or `0 < w < 1 − tol` and by the end of the row), one
edge record with weight `w` for each cell with `0 < w < 1 − tol`, and
nothing for cells with `w ≤ 0`, all in 1-based offset-adjusted coordinates;
stated against the specification-side functions `specRowRuns` (maximal
spans) and `specRowEdges` built from the claim's wording. -/
theorem denseToSparse_spec (mat : List ℚ) (nrow ncol rowOff colOff : Nat) (id : Int)
    (tol : ℚ) (htol : 0 ≤ tol ∧ tol < 1) :
    (denseToSparse mat nrow ncol rowOff colOff id tol).runs =
      ((List.range nrow).map (fun (i : Nat) => specRowRuns tol ((rowOff : Int) + (i : Int) + 1)
        colOff id 0 ((List.range ncol).map (fun (j : Nat) => mat.getD (i * ncol + j) 0)))).join ∧
    (denseToSparse mat nrow ncol rowOff colOff id tol).edges =
      ((List.range nrow).map (fun (i : Nat) => specRowEdges tol ((rowOff : Int) + (i : Int) + 1)
        colOff id 0 ((List.range ncol).map (fun (j : Nat) => mat.getD (i * ncol + j) 0)))).join := by
  have main : ∀ (is : List Nat) (res : SparseResult),
      is.foldl (fun (res : SparseResult) (i : Nat) =>
        dtsRowAux ((rowOff : Int) + (i : Int) + 1) colOff id tol 0 (-1)
          ((List.range ncol).map (fun (j : Nat) => mat.getD (i * ncol + j) 0)) res) res =
      ⟨res.runs ++ (is.map (fun (i : Nat) => specRowRuns tol ((rowOff : Int) + (i : Int) + 1)
          colOff id 0 ((List.range ncol).map (fun (j : Nat) => mat.getD (i * ncol + j) 0)))).join,
       res.edges ++ (is.map (fun (i : Nat) => specRowEdges tol ((rowOff : Int) + (i : Int) + 1)
          colOff id 0 ((List.range ncol).map (fun (j : Nat) => mat.getD (i * ncol + j) 0)))).join⟩ := by
    intro is
    induction is with
    | nil => intro res; simp
    | cons i rest ih =>
      intro res
      simp only [List.foldl_cons, List.map_cons, List.join]
      rw [dtsRowAux_prepend, ih]
      simp [dtsRowAux_runs_none _ _ _ _ htol, dtsRowAux_edges]
  simp only [denseToSparse]
  rw [main]
  simp

unseal Rat.add Rat.mul Rat.inv Rat.sub in
/-- Witness for C9 on a concrete 2-by-2 matrix with the default tolerance:
row 1 is `[1, 1/2]` (a unit run then an edge), row 2 is `[0, 1]`. -/
theorem denseToSparse_spec_witness :
    ((0 : ℚ) ≤ 1/1000000 ∧ (1 : ℚ)/1000000 < 1) ∧
    (denseToSparse [1, 1/2, 0, 1] 2 2 0 0 7 (1/1000000)).runs =
      ((List.range 2).map (fun (i : Nat) => specRowRuns (1/1000000) ((0 : Int) + (i : Int) + 1)
        0 7 0 ((List.range 2).map (fun (j : Nat) =>
          ([1, 1/2, 0, 1] : List ℚ).getD (i * 2 + j) 0)))).join ∧
    (denseToSparse [1, 1/2, 0, 1] 2 2 0 0 7 (1/1000000)).runs =
      [⟨1, 1, 1, 7⟩, ⟨2, 2, 2, 7⟩] :=
  ⟨⟨by norm_num, by norm_num⟩,
    (denseToSparse_spec [1, 1/2, 0, 1] 2 2 0 0 7 (1/1000000)
      ⟨by norm_num, by norm_num⟩).1,
    by decide⟩

unseal Rat.add Rat.mul Rat.inv Rat.sub in
/-- Witness for C3 at the diagonal half-cell traversal, whose covered
fraction is 1/2. -/
theorem analyticalCoveredFraction_spec_witness :
    (0 < unitBox.width ∧ 0 < unitBox.height ∧ 2 ≤ diagTrav.length ∧
      onBoundary unitBox diagTrav.headI ∧ onBoundary unitBox diagTrav.getLastI ∧
      ∀ p ∈ diagTrav, unitBox.containsPt p) ∧
    0 ≤ analyticalCoveredFraction unitBox diagTrav ∧
    analyticalCoveredFraction unitBox diagTrav = 1 / 2 :=
  ⟨by decide,
    (analyticalCoveredFraction_spec unitBox diagTrav (by decide) (by decide) (by decide)
      (by decide) (by decide) (by decide)).2.2.2.2,
    by decide⟩

/-! ### Invariant machinery for P1/P2/P3 and the ordering contract -/

theorem emitsOk_nil (fr id hi m : Int) : emitsOk fr id hi m [] [] := by
  simp [emitsOk]

theorem emitsOk_mono {fr id hi m runs edges} (h : emitsOk fr id hi m runs edges)
    {m2 : Int} (hm : m ≤ m2) : emitsOk fr id hi m2 runs edges := by
  obtain ⟨h1, h2, h3, h4, h5⟩ := h
  exact ⟨fun r hr => ⟨(h1 r hr).1, le_trans (h1 r hr).2 hm⟩,
    fun e he => ⟨(h2 e he).1, le_trans (h2 e he).2 hm⟩, h3, h4, h5⟩

theorem emitsOk_addRun {fr id hi m runs edges} (h : emitsOk fr id hi m runs edges)
    {r : GridRun} (hb : runBasic fr id hi r) (hm : m < r.colStart) :
    emitsOk fr id hi r.colEnd (runs ++ [r]) edges := by
  obtain ⟨h1, h2, h3, h4, h5⟩ := h
  have hce : r.colStart ≤ r.colEnd := hb.2.2.2.1
  refine ⟨?_, ?_, ?_, h4, ?_⟩
  · intro x hx
    rcases List.mem_append.mp hx with hx | hx
    · exact ⟨(h1 x hx).1, le_trans (h1 x hx).2 (by omega)⟩
    · rw [List.mem_singleton.mp hx]; exact ⟨hb, le_refl _⟩
  · intro e he
    exact ⟨(h2 e he).1, le_trans (h2 e he).2 (by omega)⟩
  · rw [List.pairwise_append]
    refine ⟨h3, List.pairwise_singleton _ _, ?_⟩
    intro a ha b hb2
    rw [List.mem_singleton.mp hb2]
    have := (h1 a ha).2
    omega
  · intro x hx e he
    rcases List.mem_append.mp hx with hx | hx
    · exact h5 x hx e he
    · rw [List.mem_singleton.mp hx]
      have := (h2 e he).2
      left; omega

theorem emitsOk_addEdge {fr id hi m runs edges} (h : emitsOk fr id hi m runs edges)
    {e : GridEdge} (hb : edgeBasic fr id hi e) (hm : m < e.col) :
    emitsOk fr id hi e.col runs (edges ++ [e]) := by
  obtain ⟨h1, h2, h3, h4, h5⟩ := h
  refine ⟨?_, ?_, h3, ?_, ?_⟩
  · intro x hx
    exact ⟨(h1 x hx).1, le_trans (h1 x hx).2 (by omega)⟩
  · intro x hx
    rcases List.mem_append.mp hx with hx | hx
    · exact ⟨(h2 x hx).1, le_trans (h2 x hx).2 (by omega)⟩
    · rw [List.mem_singleton.mp hx]; exact ⟨hb, le_refl _⟩
  · rw [List.pairwise_append]
    refine ⟨h4, List.pairwise_singleton _ _, ?_⟩
    intro a ha b hb2
    rw [List.mem_singleton.mp hb2]
    have := (h2 a ha).2
    omega
  · intro r hr x hx
    rcases List.mem_append.mp hx with hx | hx
    · exact h5 r hr x hx
    · rw [List.mem_singleton.mp hx]
      have := (h1 r hr).2
      right; omega

theorem mergeInto_props (lo hi : Int) :
    ∀ (rest : List BoundaryCellRecord) (r : BoundaryCellRecord),
      List.Pairwise bcrLe rest → (∀ x ∈ rest, r.col ≤ x.col) →
      recOkI lo hi r → (∀ x ∈ rest, recOkI lo hi x) →
      (∀ x ∈ mergeInto r rest, r.col ≤ x.col) ∧
      List.Pairwise (fun a b => a.col < b.col) (mergeInto r rest) ∧
      (∀ x ∈ mergeInto r rest, recOkI lo hi x)
  | [], r, _, _, hr, _ => by
    simp only [mergeInto]
    refine ⟨?_, List.pairwise_singleton _ _, ?_⟩
    · intro x hx
      rw [List.mem_singleton.mp hx]
    · intro x hx
      rw [List.mem_singleton.mp hx]; exact hr
  | r2 :: rest, r, hpw, hle, hr, hall => by
    obtain ⟨hhead, htail⟩ := List.pairwise_cons.mp hpw
    by_cases hc : r2.col = r.col
    · have hr2 := hall r2 (List.mem_cons_self _ _)
      have hrm : recOkI lo hi ⟨r.col, r.coverage + r2.coverage,
          r.windingDelta + r2.windingDelta⟩ := by
        refine ⟨hr.1, hr.2.1, fun hq => ?_⟩
        have e1 : r.coverage = 0 := hr.2.2 hq
        have e2 : r2.coverage = 0 := hr2.2.2 (by rw [hc]; exact hq)
        simp [e1, e2]
      have ih := mergeInto_props lo hi rest
        ⟨r.col, r.coverage + r2.coverage, r.windingDelta + r2.windingDelta⟩ htail
        (fun x hx => le_trans (le_of_eq hc.symm) (hhead x hx))
        hrm (fun x hx => hall x (List.mem_cons_of_mem _ hx))
      rw [mergeInto, if_pos hc]
      exact ih
    · have hlt : r.col < r2.col :=
        lt_of_le_of_ne (hle r2 (List.mem_cons_self _ _)) (fun hh => hc hh.symm)
      have ih := mergeInto_props lo hi rest r2 htail hhead
        (hall r2 (List.mem_cons_self _ _))
        (fun x hx => hall x (List.mem_cons_of_mem _ hx))
      rw [mergeInto, if_neg hc]
      refine ⟨?_, ?_, ?_⟩
      · intro x hx
        rcases List.mem_cons.mp hx with hx | hx
        · rw [hx]
        · exact le_trans (le_of_lt hlt) (ih.1 x hx)
      · rw [List.pairwise_cons]
        exact ⟨fun x hx => lt_of_lt_of_le hlt (ih.1 x hx), ih.2.1⟩
      · intro x hx
        rcases List.mem_cons.mp hx with hx | hx
        · rw [hx]; exact hr
        · exact ih.2.2 x hx

theorem mergeCols_props (lo hi : Int) (l : List BoundaryCellRecord)
    (hs : List.Pairwise bcrLe l) (hok : ∀ x ∈ l, recOkI lo hi x) :
    List.Pairwise (fun a b => a.col < b.col) (mergeCols l) ∧
    (∀ x ∈ mergeCols l, recOkI lo hi x) := by
  cases l with
  | nil => simp [mergeCols]
  | cons r rest =>
    obtain ⟨hhead, htail⟩ := List.pairwise_cons.mp hs
    have h := mergeInto_props lo hi rest r htail hhead
      (hok r (List.mem_cons_self _ _)) (fun x hx => hok x (List.mem_cons_of_mem _ hx))
    exact ⟨h.2.1, h.2.2⟩

theorem getD_mem_or : ∀ (rd : RowData) (i : Nat), rd.getD i [] ∈ rd ∨ rd.getD i [] = []
  | [], _ => Or.inr rfl
  | rv :: rd, 0 => Or.inl (by simp)
  | rv :: rd, i + 1 => by
    rw [List.getD_cons_succ]
    exact (getD_mem_or rd i).imp (fun h => List.mem_cons_of_mem _ h) (fun h => h)

theorem rowOk_getD {lo hi : Int} {rd : RowData} (h : rowOk lo hi rd) (i : Nat) :
    ∀ x ∈ rd.getD i [], recOkI lo hi x := by
  rcases getD_mem_or rd i with hm | he
  · exact h _ hm
  · rw [he]; intro x hx; simp at hx

theorem addCoverage_ok (lo hi col : Int) (v : ℚ) (hc1 : lo ≤ col) (hc2 : col < hi) :
    ∀ (rv : List BoundaryCellRecord), (∀ x ∈ rv, recOkI lo hi x) →
      ∀ x ∈ addCoverage rv col v, recOkI lo hi x
  | [], _, x, hx => by
    simp [addCoverage] at hx
    rw [hx]
    refine ⟨?_, ?_, fun hq => absurd ⟨hc1, hc2⟩ hq⟩ <;> simp <;> omega
  | r :: rest, h, x, hx => by
    rw [addCoverage] at hx
    by_cases hc : r.col = col
    · rw [if_pos hc] at hx
      rcases List.mem_cons.mp hx with hx | hx
      · have hr := h r (List.mem_cons_self _ _)
        rw [hx]
        exact ⟨hr.1, hr.2.1, fun hq => absurd (hc ▸ ⟨hc1, hc2⟩) hq⟩
      · exact h x (List.mem_cons_of_mem _ hx)
    · rw [if_neg hc] at hx
      rcases List.mem_cons.mp hx with hx | hx
      · rw [hx]; exact h r (List.mem_cons_self _ _)
      · exact addCoverage_ok lo hi col v hc1 hc2 rest
          (fun y hy => h y (List.mem_cons_of_mem _ hy)) x hx

theorem addWinding_ok (lo hi col : Int) (d : Int) (hc1 : lo - 1 ≤ col) (hc2 : col ≤ hi) :
    ∀ (rv : List BoundaryCellRecord), (∀ x ∈ rv, recOkI lo hi x) →
      ∀ x ∈ addWinding rv col d, recOkI lo hi x
  | [], _, x, hx => by
    simp [addWinding] at hx
    rw [hx]
    exact ⟨hc1, hc2, fun _ => rfl⟩
  | r :: rest, h, x, hx => by
    rw [addWinding] at hx
    by_cases hc : r.col = col
    · rw [if_pos hc] at hx
      rcases List.mem_cons.mp hx with hx | hx
      · have hr := h r (List.mem_cons_self _ _)
        rw [hx]
        exact ⟨hr.1, hr.2.1, hr.2.2⟩
      · exact h x (List.mem_cons_of_mem _ hx)
    · rw [if_neg hc] at hx
      rcases List.mem_cons.mp hx with hx | hx
      · rw [hx]; exact h r (List.mem_cons_self _ _)
      · exact addWinding_ok lo hi col d hc1 hc2 rest
          (fun y hy => h y (List.mem_cons_of_mem _ hy)) x hx

theorem windingFold_recOk (box : Box) (wf : Int) (lo hi col : Int)
    (hc1 : lo - 1 ≤ col) (hc2 : col ≤ hi) :
    ∀ (l : List LightTraversal) (rv : List BoundaryCellRecord),
      (∀ x ∈ rv, recOkI lo hi x) →
      ∀ x ∈ l.foldl (fun rv t =>
          if traversalCrosses box t then addWinding rv col (crossDelta box wf t) else rv) rv,
        recOkI lo hi x
  | [], rv, h => h
  | t :: l, rv, h => by
    rw [List.foldl_cons]
    apply windingFold_recOk box wf lo hi col hc1 hc2 l
    by_cases hcr : traversalCrosses box t
    · rw [if_pos hcr]
      exact addWinding_ok lo hi col _ hc1 hc2 rv h
    · rw [if_neg hcr]
      exact h

theorem colMapFull_ok (colOff subCols : Nat) (c : Nat) :
    (colOff : Int) - 1 ≤ (colMapFull colOff subCols c).1 ∧
    (colMapFull colOff subCols c).1 ≤ (colOff : Int) + subCols ∧
    ((colMapFull colOff subCols c).2 = true →
      (colOff : Int) ≤ (colMapFull colOff subCols c).1 ∧
      (colMapFull colOff subCols c).1 < (colOff : Int) + subCols) := by
  unfold colMapFull
  split_ifs with h1 h2 <;> simp <;> omega

theorem applyCell_rowOk (cf : ℚ) (wf : Int) (subRows subCols colOff : Nat)
    (rd : RowData) (kv : CellKey × CellRecord)
    (h : rowOk colOff ((colOff : Int) + subCols) rd) :
    rowOk colOff ((colOff : Int) + subCols) (applyCell cf wf subRows subCols colOff rd kv) ∧
    (applyCell cf wf subRows subCols colOff rd kv).length = rd.length := by
  simp only [applyCell]
  split_ifs with h1 h2 h3 h4 h5
  · exact ⟨h, rfl⟩
  · exact ⟨h, rfl⟩
  · exact ⟨h, rfl⟩
  · refine ⟨fun rv hrv => ?_, List.length_set _ _ _⟩
    rcases List.mem_or_eq_of_mem_set hrv with hin | heq
    · exact h rv hin
    · rw [heq]
      have hmap := colMapFull_ok colOff subCols kv.1.2
      apply windingFold_recOk _ _ _ _ _ hmap.1 hmap.2.1
      have hg := hmap.2.2 h4
      exact addCoverage_ok _ _ _ _ hg.1 hg.2 _ (rowOk_getD h _)
  all_goals try exact absurd rfl (by assumption)
  all_goals
    refine ⟨fun rv hrv => ?_, List.length_set _ _ _⟩
    rcases List.mem_or_eq_of_mem_set hrv with hin | heq
    · exact h rv hin
    · rw [heq]
      have hmap := colMapFull_ok colOff subCols kv.1.2
      apply windingFold_recOk _ _ _ _ _ hmap.1 hmap.2.1
      exact rowOk_getD h _

theorem applyCellFold_rowOk (cf : ℚ) (wf : Int) (subRows subCols colOff : Nat) :
    ∀ (cells : CellMap) (rd : RowData),
      rowOk colOff ((colOff : Int) + subCols) rd →
      rowOk colOff ((colOff : Int) + subCols)
        (cells.foldl (applyCell cf wf subRows subCols colOff) rd) ∧
      (cells.foldl (applyCell cf wf subRows subCols colOff) rd).length = rd.length
  | [], rd, h => ⟨h, rfl⟩
  | kv :: cells, rd, h => by
    rw [List.foldl_cons]
    have h1 := applyCell_rowOk cf wf subRows subCols colOff rd kv h
    have h2 := applyCellFold_rowOk cf wf subRows subCols colOff cells _ h1.1
    exact ⟨h2.1, h2.2.trans h1.2⟩

theorem walkRing_rowOk (fuel : Nat) (coords : List Coordinate) (ccw ext : Bool)
    (g : SubGrid) (rd rd2 : RowData)
    (h : walkRing fuel coords ccw ext g rd = some rd2)
    (hok : rowOk g.colOff ((g.colOff : Int) + g.subCols) rd) :
    rowOk g.colOff ((g.colOff : Int) + g.subCols) rd2 ∧ rd2.length = rd.length := by
  rw [walkRing] at h
  by_cases hlen : coords.length < 4
  · rw [if_pos hlen] at h
    have := Option.some.inj h
    rw [← this]
    exact ⟨hok, rfl⟩
  · rw [if_neg hlen] at h
    dsimp only [] at h
    split at h
    · exact absurd h (by simp)
    · have := Option.some.inj h
      rw [← this]
      exact applyCellFold_rowOk _ _ _ _ _ _ rd hok

theorem walkHoles_rowOk (fuel : Nat) (g : SubGrid) :
    ∀ (hs : List RingData) (rd rd2 : RowData),
      walkHoles fuel g hs rd = some rd2 →
      rowOk g.colOff ((g.colOff : Int) + g.subCols) rd →
      rowOk g.colOff ((g.colOff : Int) + g.subCols) rd2 ∧ rd2.length = rd.length
  | [], rd, rd2, h, hok => by
    rw [walkHoles] at h
    have := Option.some.inj h
    rw [← this]
    exact ⟨hok, rfl⟩
  | hh :: hs, rd, rd2, h, hok => by
    rw [walkHoles] at h
    split at h
    · exact absurd h (by simp)
    · rename_i rd1 heq
      have h1 := walkRing_rowOk fuel hh.coords hh.isCCW false g rd rd1 heq hok
      have h2 := walkHoles_rowOk fuel g hs rd1 rd2 h h1.1
      exact ⟨h2.1, h2.2.trans h1.2⟩

theorem shrinkToFit_window (fg : FullGrid) (reg : Box)
    (hc : 0 < fg.ncol) (hr : 0 < fg.nrow) :
    (shrinkToFit fg reg).colOff + (shrinkToFit fg reg).subCols ≤ fg.ncol.toNat ∧
    (shrinkToFit fg reg).rowOff + (shrinkToFit fg reg).subRows ≤ fg.nrow.toNat := by
  simp only [shrinkToFit]
  omega

theorem sweepStep_emits (fr id lo hi : Int) (hlo : 0 ≤ lo) (st : SweepState)
    (mc : BoundaryCellRecord) (hmc : recOkI lo hi mc) (hprev : st.prevCol < mc.col)
    (hinv : emitsOk fr id hi (st.prevCol + 1) st.runs st.edges) :
    emitsOk fr id hi (mc.col + 1) (sweepStep fr id st mc).runs (sweepStep fr id st mc).edges ∧
    (sweepStep fr id st mc).prevCol = mc.col := by
  obtain ⟨hb1, hb2, hb3⟩ := hmc
  refine ⟨?_, rfl⟩
  have hrun1 : emitsOk fr id hi mc.col
      (if st.winding ≠ 0 ∧ st.prevCol > -2 ∧ mc.col > st.prevCol + 1 then
        st.runs ++ [⟨fr, st.prevCol + 1 + 1, mc.col - 1 + 1, id⟩]
      else st.runs) st.edges := by
    by_cases hg : st.winding ≠ 0 ∧ st.prevCol > -2 ∧ mc.col > st.prevCol + 1
    · obtain ⟨hg1, hg2, hg3⟩ := hg
      rw [if_pos ⟨hg1, hg2, hg3⟩]
      have hbr : runBasic fr id hi ⟨fr, st.prevCol + 1 + 1, mc.col - 1 + 1, id⟩ := by
        refine ⟨rfl, rfl, ?_, ?_, ?_⟩
        · show (1 : Int) ≤ st.prevCol + 1 + 1
          omega
        · show st.prevCol + 1 + 1 ≤ mc.col - 1 + 1
          omega
        · show mc.col - 1 + 1 ≤ hi
          omega
      have hstep := emitsOk_addRun hinv hbr
        (by show st.prevCol + 1 < st.prevCol + 1 + 1; omega)
      exact emitsOk_mono hstep (by show mc.col - 1 + 1 ≤ mc.col; omega)
    · rw [if_neg hg]
      exact emitsOk_mono hinv (by omega)
  show emitsOk fr id hi (mc.col + 1)
    (if mc.coverage > tol6 ∧ mc.coverage < 1 - tol6 then
      (if st.winding ≠ 0 ∧ st.prevCol > -2 ∧ mc.col > st.prevCol + 1 then
        st.runs ++ [⟨fr, st.prevCol + 1 + 1, mc.col - 1 + 1, id⟩]
      else st.runs)
    else if mc.coverage ≥ 1 - tol6 then
      (if st.winding ≠ 0 ∧ st.prevCol > -2 ∧ mc.col > st.prevCol + 1 then
        st.runs ++ [⟨fr, st.prevCol + 1 + 1, mc.col - 1 + 1, id⟩]
      else st.runs) ++ [⟨fr, mc.col + 1, mc.col + 1, id⟩]
    else
      (if st.winding ≠ 0 ∧ st.prevCol > -2 ∧ mc.col > st.prevCol + 1 then
        st.runs ++ [⟨fr, st.prevCol + 1 + 1, mc.col - 1 + 1, id⟩]
      else st.runs))
    (if mc.coverage > tol6 ∧ mc.coverage < 1 - tol6 then
      st.edges ++ [⟨fr, mc.col + 1, mc.coverage, id⟩]
    else st.edges)
  by_cases he : mc.coverage > tol6 ∧ mc.coverage < 1 - tol6
  · rw [if_pos he, if_pos he]
    have hg2 : lo ≤ mc.col ∧ mc.col < hi := by
      by_contra hq
      rw [hb3 hq] at he
      norm_num [tol6] at he
    have hbe : edgeBasic fr id hi ⟨fr, mc.col + 1, mc.coverage, id⟩ := by
      refine ⟨rfl, rfl, ?_, ?_, he.1, he.2⟩
      · show (1 : Int) ≤ mc.col + 1
        omega
      · show mc.col + 1 ≤ hi
        omega
    exact emitsOk_addEdge hrun1 hbe (by show mc.col < mc.col + 1; omega)
  · rw [if_neg he, if_neg he]
    by_cases hd : mc.coverage ≥ 1 - tol6
    · rw [if_pos hd]
      have hg2 : lo ≤ mc.col ∧ mc.col < hi := by
        by_contra hq
        rw [hb3 hq] at hd
        norm_num [tol6] at hd
      have hbr : runBasic fr id hi ⟨fr, mc.col + 1, mc.col + 1, id⟩ := by
        refine ⟨rfl, rfl, ?_, le_refl _, ?_⟩
        · show (1 : Int) ≤ mc.col + 1
          omega
        · show mc.col + 1 ≤ hi
          omega
      exact emitsOk_addRun hrun1 hbr (by show mc.col < mc.col + 1; omega)
    · rw [if_neg hd]
      exact emitsOk_mono hrun1 (by omega)

theorem sweepFold_emits (fr id lo hi : Int) (hlo : 0 ≤ lo) :
    ∀ (l : List BoundaryCellRecord) (st : SweepState),
      (∀ mc ∈ l, recOkI lo hi mc) →
      List.Pairwise (fun a b => a.col < b.col) l →
      (∀ mc ∈ l, st.prevCol < mc.col) →
      emitsOk fr id hi (st.prevCol + 1) st.runs st.edges →
      emitsOk fr id hi ((l.foldl (sweepStep fr id) st).prevCol + 1)
        (l.foldl (sweepStep fr id) st).runs (l.foldl (sweepStep fr id) st).edges
  | [], st, _, _, _, hinv => hinv
  | mc :: l, st, hok, hpw, hlt, hinv => by
    obtain ⟨hhead, htail⟩ := List.pairwise_cons.mp hpw
    have hstep := sweepStep_emits fr id lo hi hlo st mc (hok mc (List.mem_cons_self _ _))
      (hlt mc (List.mem_cons_self _ _)) hinv
    rw [List.foldl_cons]
    exact sweepFold_emits fr id lo hi hlo l (sweepStep fr id st mc)
      (fun x hx => hok x (List.mem_cons_of_mem _ hx)) htail
      (fun x hx => by rw [hstep.2]; exact hhead x hx)
      (by rw [hstep.2]; exact hstep.1)

theorem sweepRow_emits (fr id lo hi : Int) (hlo : 0 ≤ lo)
    (rowVec : List BoundaryCellRecord) (hok : ∀ x ∈ rowVec, recOkI lo hi x) :
    ∃ m, emitsOk fr id hi m (sweepRow fr id rowVec).1 (sweepRow fr id rowVec).2 := by
  by_cases h : rowVec = []
  · rw [sweepRow, if_pos h]
    exact ⟨0, emitsOk_nil fr id hi 0⟩
  · rw [sweepRow, if_neg h]
    refine ⟨((mergeCols (rowVec.insertionSort bcrLe)).foldl (sweepStep fr id)
      ⟨0, -2, [], []⟩).prevCol + 1, ?_⟩
    show emitsOk fr id hi _
      ((mergeCols (rowVec.insertionSort bcrLe)).foldl (sweepStep fr id) ⟨0, -2, [], []⟩).runs
      ((mergeCols (rowVec.insertionSort bcrLe)).foldl (sweepStep fr id) ⟨0, -2, [], []⟩).edges
    have hsort : List.Pairwise bcrLe (rowVec.insertionSort bcrLe) :=
      List.sorted_insertionSort bcrLe rowVec
    have hmem : ∀ x ∈ rowVec.insertionSort bcrLe, recOkI lo hi x :=
      fun x hx => hok x ((List.mem_insertionSort bcrLe).mp hx)
    obtain ⟨hpw, hokm⟩ := mergeCols_props lo hi _ hsort hmem
    exact sweepFold_emits fr id lo hi hlo _ ⟨0, -2, [], []⟩ hokm hpw
      (fun mc hmc => by
        have h1 := (hokm mc hmc).1
        show (-2 : Int) < mc.col
        omega)
      (emitsOk_nil fr id hi (-2 + 1))

theorem sweepPrefix_succ (rowOff : Nat) (id : Int) (rd : RowData) (n : Nat) :
    sweepPrefix rowOff id rd (n + 1) =
      ((sweepPrefix rowOff id rd n).1 ++
        (sweepRow ((rowOff : Int) + (n : Int) + 1) id (rd.getD n [])).1,
       (sweepPrefix rowOff id rd n).2 ++
        (sweepRow ((rowOff : Int) + (n : Int) + 1) id (rd.getD n [])).2) := by
  simp [sweepPrefix, List.range_succ]

theorem sweepPrefix_ok (rowOff : Nat) (id lo hi : Int) (hlo : 0 ≤ lo) (rd : RowData)
    (hok : rowOk lo hi rd) :
    ∀ (n : Nat),
      (∀ r ∈ (sweepPrefix rowOff id rd n).1, r.id = id ∧ (rowOff : Int) + 1 ≤ r.row ∧
        r.row ≤ (rowOff : Int) + n ∧ 1 ≤ r.colStart ∧ r.colStart ≤ r.colEnd ∧ r.colEnd ≤ hi) ∧
      (∀ e ∈ (sweepPrefix rowOff id rd n).2, e.id = id ∧ (rowOff : Int) + 1 ≤ e.row ∧
        e.row ≤ (rowOff : Int) + n ∧ 1 ≤ e.col ∧ e.col ≤ hi ∧
        tol6 < e.weight ∧ e.weight < 1 - tol6) ∧
      List.Pairwise runOrd (sweepPrefix rowOff id rd n).1 ∧
      List.Pairwise edgeOrd (sweepPrefix rowOff id rd n).2 ∧
      (∀ r ∈ (sweepPrefix rowOff id rd n).1, ∀ e ∈ (sweepPrefix rowOff id rd n).2,
        r.row ≠ e.row ∨ e.col < r.colStart ∨ r.colEnd < e.col)
  | 0 => by simp [sweepPrefix]
  | n + 1 => by
    obtain ⟨ih1, ih2, ih3, ih4, ih5⟩ := sweepPrefix_ok rowOff id lo hi hlo rd hok n
    obtain ⟨m, hem⟩ := sweepRow_emits ((rowOff : Int) + (n : Int) + 1) id lo hi hlo
      (rd.getD n []) (rowOk_getD hok n)
    obtain ⟨hr, he, hpr, hpe, hx⟩ := hem
    rw [sweepPrefix_succ]
    refine ⟨?_, ?_, ?_, ?_, ?_⟩
    · intro r hrm
      rcases List.mem_append.mp hrm with hin | hin
      · obtain ⟨a1, a2, a3, a4⟩ := ih1 r hin
        exact ⟨a1, a2, by push_cast at a3 ⊢; omega, a4⟩
      · obtain ⟨⟨hrow, hid, hc1, hc2, hc3⟩, _⟩ := hr r hin
        refine ⟨hid, ?_, ?_, hc1, hc2, hc3⟩
        · rw [hrow]; push_cast; omega
        · rw [hrow]; push_cast; omega
    · intro e hemm
      rcases List.mem_append.mp hemm with hin | hin
      · obtain ⟨a1, a2, a3, a4⟩ := ih2 e hin
        exact ⟨a1, a2, by push_cast at a3 ⊢; omega, a4⟩
      · obtain ⟨⟨hrow, hid, hc1, hc2, hw1, hw2⟩, _⟩ := he e hin
        refine ⟨hid, ?_, ?_, hc1, hc2, hw1, hw2⟩
        · rw [hrow]; push_cast; omega
        · rw [hrow]; push_cast; omega
    · rw [List.pairwise_append]
      refine ⟨ih3, ?_, ?_⟩
      · refine List.Pairwise.imp_of_mem ?_ hpr
        intro a b ha hb hcc
        exact Or.inr ⟨by rw [(hr a ha).1.1, (hr b hb).1.1], hcc⟩
      · intro a ha b hb
        have h1 := (ih1 a ha).2.2.1
        have h2 := (hr b hb).1.1
        exact Or.inl (by rw [h2]; push_cast at h1 ⊢; omega)
    · rw [List.pairwise_append]
      refine ⟨ih4, ?_, ?_⟩
      · refine List.Pairwise.imp_of_mem ?_ hpe
        intro a b ha hb hcc
        exact Or.inr ⟨by rw [(he a ha).1.1, (he b hb).1.1], hcc⟩
      · intro a ha b hb
        have h1 := (ih2 a ha).2.2.1
        have h2 := (he b hb).1.1
        exact Or.inl (by rw [h2]; push_cast at h1 ⊢; omega)
    · intro r hrm e hemm
      rcases List.mem_append.mp hrm with hrin | hrin <;>
        rcases List.mem_append.mp hemm with hein | hein
      · exact ih5 r hrin e hein
      · have h1 := (ih1 r hrin).2.2.1
        have h2 := (he e hein).1.1
        exact Or.inl (by rw [h2]; push_cast at h1 ⊢; omega)
      · have h1 := (hr r hrin).1.1
        have h2 := (ih2 e hein).2.2.1
        exact Or.inl (by rw [h1]; push_cast at h2 ⊢; omega)
      · exact Or.inr (hx r hrin e hein)

theorem sweepAll_blockOk (rowOff : Nat) (id lo hi nrowI ncolI : Int) (hlo : 0 ≤ lo)
    (rd : RowData) (hok : rowOk lo hi rd)
    (hrow : (rowOff : Int) + rd.length ≤ nrowI) (hcol : hi ≤ ncolI) :
    blockOk id nrowI ncolI (sweepAll rowOff id rd).1 (sweepAll rowOff id rd).2 := by
  have heq : sweepAll rowOff id rd = sweepPrefix rowOff id rd rd.length := rfl
  rw [heq]
  obtain ⟨h1, h2, h3, h4, h5⟩ := sweepPrefix_ok rowOff id lo hi hlo rd hok rd.length
  have htol1 : (0 : ℚ) < tol6 := by norm_num [tol6]
  have htol2 : (1 : ℚ) - tol6 < 1 := by norm_num [tol6]
  refine ⟨?_, ?_, h3, h4, h5⟩
  · intro r hr
    obtain ⟨a1, a2, a3, a4, a5, a6⟩ := h1 r hr
    exact ⟨a1, by omega, by omega, a4, a5, by omega⟩
  · intro e he
    obtain ⟨a1, a2, a3, a4, a5, a6, a7⟩ := h2 e he
    exact ⟨a1, by omega, by omega, a4, by omega, lt_trans htol1 a6, lt_trans a7 htol2⟩

theorem blockOk_nil (id nrowI ncolI : Int) : blockOk id nrowI ncolI [] [] := by
  simp [blockOk]

theorem processPoly_blockOk (fuel : Nat) (fg : FullGrid) (d : PolyData) (id : Int)
    (re : List GridRun × List GridEdge) (hc : 0 < fg.ncol) (hr : 0 < fg.nrow)
    (h : processPoly fuel fg d id = some re) :
    blockOk id fg.nrow fg.ncol re.1 re.2 := by
  rw [processPoly] at h
  dsimp only [] at h
  split at h
  · rw [← Option.some.inj h]
    exact blockOk_nil id fg.nrow fg.ncol
  · rename_i reg hreg
    split at h
    · rw [← Option.some.inj h]
      exact blockOk_nil id fg.nrow fg.ncol
    · split at h
      · exact absurd h (by simp)
      · rename_i rd1 heq1
        split at h
        · exact absurd h (by simp)
        · rename_i rd2 heq2
          rw [← Option.some.inj h]
          have hok0 : rowOk ((shrinkToFit fg reg).colOff : Int)
              (((shrinkToFit fg reg).colOff : Int) + (shrinkToFit fg reg).subCols)
              (List.replicate (shrinkToFit fg reg).subRows []) := by
            intro rv hrv
            rw [List.eq_of_mem_replicate hrv]
            intro x hx
            simp at hx
          have h1 := walkRing_rowOk fuel d.exterior.coords d.exterior.isCCW true
            (shrinkToFit fg reg) _ rd1 heq1 hok0
          have h2 := walkHoles_rowOk fuel (shrinkToFit fg reg) d.holes rd1 rd2 heq2 h1.1
          have hw := shrinkToFit_window fg reg hc hr
          have hlen : rd2.length = (shrinkToFit fg reg).subRows := by
            rw [h2.2, h1.2, List.length_replicate]
          apply sweepAll_blockOk (shrinkToFit fg reg).rowOff id
            ((shrinkToFit fg reg).colOff : Int)
            (((shrinkToFit fg reg).colOff : Int) + (shrinkToFit fg reg).subCols)
            fg.nrow fg.ncol (Int.natCast_nonneg _) rd2 h2.1
          · rw [hlen]
            omega
          · omega

mutual
theorem processGeom_newOk (fuel : Nat) (fg : FullGrid) (id : Int)
    (hc : 0 < fg.ncol) (hr : 0 < fg.nrow) :
    ∀ (g : Geom) (acc res : List GridRun × List GridEdge) (t : Bool),
      processGeom fuel fg id acc g = some (res, t) →
      (∀ r ∈ res.1, r ∈ acc.1 ∨ (r.id = id ∧ runInBounds fg.nrow fg.ncol r)) ∧
      (∀ e ∈ res.2, e ∈ acc.2 ∨ (e.id = id ∧ edgeInBounds fg.nrow fg.ncol e))
  | Geom.nonPoly, acc, res, t, h => by
    rw [processGeom] at h
    rw [← (Prod.mk.inj (Option.some.inj h)).1]
    exact ⟨fun r hr2 => Or.inl hr2, fun e he2 => Or.inl he2⟩
  | Geom.poly (Except.error e), acc, res, t, h => by
    rw [processGeom] at h
    rw [← (Prod.mk.inj (Option.some.inj h)).1]
    exact ⟨fun r hr2 => Or.inl hr2, fun x hx2 => Or.inl hx2⟩
  | Geom.poly (Except.ok d), acc, res, t, h => by
    rw [processGeom] at h
    split at h
    · exact absurd h (by simp)
    · rename_i re heq
      have hb := processPoly_blockOk fuel fg d id re hc hr heq
      rw [← (Prod.mk.inj (Option.some.inj h)).1]
      constructor
      · intro r hrm
        rcases List.mem_append.mp hrm with hin | hin
        · exact Or.inl hin
        · exact Or.inr ⟨(hb.1 r hin).1, (hb.1 r hin).2⟩
      · intro x hxm
        rcases List.mem_append.mp hxm with hin | hin
        · exact Or.inl hin
        · exact Or.inr (hb.2.1 x hin)
  | Geom.multi gs, acc, res, t, h =>
    processGeomList_newOk fuel fg id hc hr gs acc res t (by rw [processGeom] at h; exact h)

theorem processGeomList_newOk (fuel : Nat) (fg : FullGrid) (id : Int)
    (hc : 0 < fg.ncol) (hr : 0 < fg.nrow) :
    ∀ (gs : GeomList) (acc res : List GridRun × List GridEdge) (t : Bool),
      processGeomList fuel fg id acc gs = some (res, t) →
      (∀ r ∈ res.1, r ∈ acc.1 ∨ (r.id = id ∧ runInBounds fg.nrow fg.ncol r)) ∧
      (∀ e ∈ res.2, e ∈ acc.2 ∨ (e.id = id ∧ edgeInBounds fg.nrow fg.ncol e))
  | GeomList.nil, acc, res, t, h => by
    rw [processGeomList] at h
    rw [← (Prod.mk.inj (Option.some.inj h)).1]
    exact ⟨fun r hr2 => Or.inl hr2, fun e he2 => Or.inl he2⟩
  | GeomList.cons g gs, acc, res, t, h => by
    rw [processGeomList] at h
    split at h
    · exact absurd h (by simp)
    · rename_i r0 heq
      have hg := processGeom_newOk fuel fg id hc hr g acc r0.1 r0.2 (by rw [heq])
      by_cases hthr : r0.2 = true
      · rw [if_pos hthr] at h
        rw [← (Prod.mk.inj (Option.some.inj h)).1]
        exact hg
      · rw [if_neg hthr] at h
        have hrec := processGeomList_newOk fuel fg id hc hr gs r0.1 res t h
        constructor
        · intro r hrm
          rcases hrec.1 r hrm with hin | hnew
          · rcases hg.1 r hin with hin2 | hnew2
            · exact Or.inl hin2
            · exact Or.inr hnew2
          · exact Or.inr hnew
        · intro x hxm
          rcases hrec.2 x hxm with hin | hnew
          · rcases hg.2 x hin with hin2 | hnew2
            · exact Or.inl hin2
            · exact Or.inr hnew2
          · exact Or.inr hnew
end

theorem processGeom_simple_block (fuel : Nat) (fg : FullGrid) (id : Int)
    (hc : 0 < fg.ncol) (hr : 0 < fg.nrow) (g : Geom)
    (hs : slotSimple (WkbSlot.geom false g))
    (acc res : List GridRun × List GridEdge) (t : Bool)
    (h : processGeom fuel fg id acc g = some (res, t)) :
    ∃ bl : List GridRun × List GridEdge,
      res = (acc.1 ++ bl.1, acc.2 ++ bl.2) ∧ blockOk id fg.nrow fg.ncol bl.1 bl.2 := by
  cases g with
  | nonPoly =>
    rw [processGeom] at h
    refine ⟨([], []), ?_, blockOk_nil id fg.nrow fg.ncol⟩
    rw [← (Prod.mk.inj (Option.some.inj h)).1]
    simp
  | poly d =>
    cases d with
    | error e =>
      rw [processGeom] at h
      refine ⟨([], []), ?_, blockOk_nil id fg.nrow fg.ncol⟩
      rw [← (Prod.mk.inj (Option.some.inj h)).1]
      simp
    | ok pd =>
      rw [processGeom] at h
      split at h
      · exact absurd h (by simp)
      · rename_i re heq
        refine ⟨re, ?_, processPoly_blockOk fuel fg pd id re hc hr heq⟩
        rw [← (Prod.mk.inj (Option.some.inj h)).1]
  | multi gs => exact absurd hs (by simp [slotSimple])

theorem filter_nil_of_none {α : Type} (p : α → Bool) (l : List α)
    (h : ∀ x ∈ l, ¬ p x = true) : l.filter p = [] := by
  by_contra hne
  obtain ⟨x, hx⟩ := List.exists_mem_of_ne_nil _ hne
  have h2 := List.mem_filter.mp hx
  exact h x h2.1 h2.2

theorem pairwise_filter_length {α : Type} (R : α → α → Prop) (p : α → Bool) :
    ∀ (l : List α), List.Pairwise R l →
      (∀ a b, R a b → p a = true → p b = true → False) →
      (l.filter p).length ≤ 1
  | [], _, _ => by simp
  | a :: l, hpw, hcon => by
    obtain ⟨hhead, htail⟩ := List.pairwise_cons.mp hpw
    by_cases hp : p a = true
    · rw [List.filter_cons_of_pos hp]
      have hnil : l.filter p = [] :=
        filter_nil_of_none p l (fun b hb hpb => hcon a b (hhead b hb) hp hpb)
      rw [hnil]
      simp
    · rw [List.filter_cons_of_neg (by simpa using hp)]
      exact pairwise_filter_length R p l htail hcon

theorem pairwise_of_all {α : Type} (R : α → α → Prop) :
    ∀ (l : List α), (∀ a ∈ l, ∀ b ∈ l, R a b) → List.Pairwise R l
  | [], _ => List.Pairwise.nil
  | a :: l, h =>
    List.Pairwise.cons (fun b hb => h a (List.mem_cons_self _ _) b (List.mem_cons_of_mem _ hb))
      (pairwise_of_all R l
        (fun x hx y hy => h x (List.mem_cons_of_mem _ hx) y (List.mem_cons_of_mem _ hy)))

theorem blockOk_count (id nrowI ncolI : Int) (rs : List GridRun) (es : List GridEdge)
    (hb : blockOk id nrowI ncolI rs es) (idq row c : Int) :
    (rs.filter (fun r =>
      decide (r.id = idq ∧ r.row = row ∧ r.colStart ≤ c ∧ c ≤ r.colEnd))).length +
    (es.filter (fun e => decide (e.id = idq ∧ e.row = row ∧ e.col = c))).length ≤ 1 := by
  obtain ⟨hR, hE, hpr, hpe, hx⟩ := hb
  have h1 := pairwise_filter_length runOrd
    (fun r => decide (r.id = idq ∧ r.row = row ∧ r.colStart ≤ c ∧ c ≤ r.colEnd)) rs hpr
    (by
      intro a b hab hpa hpb
      simp only [decide_eq_true_eq] at hpa hpb
      have hab2 : a.row < b.row ∨ (a.row = b.row ∧ a.colEnd < b.colStart) := hab
      obtain ⟨_, ha2, ha3, ha4⟩ := hpa
      obtain ⟨_, hb2, hb3, hb4⟩ := hpb
      rcases hab2 with hlt | ⟨_, hcc⟩ <;> omega)
  have h2 := pairwise_filter_length edgeOrd
    (fun e => decide (e.id = idq ∧ e.row = row ∧ e.col = c)) es hpe
    (by
      intro a b hab hpa hpb
      simp only [decide_eq_true_eq] at hpa hpb
      have hab2 : a.row < b.row ∨ (a.row = b.row ∧ a.col < b.col) := hab
      obtain ⟨_, ha2, ha3⟩ := hpa
      obtain ⟨_, hb2, hb3⟩ := hpb
      rcases hab2 with hlt | ⟨_, hcc⟩ <;> omega)
  by_cases hrun : (rs.filter (fun r =>
      decide (r.id = idq ∧ r.row = row ∧ r.colStart ≤ c ∧ c ≤ r.colEnd))).length = 0
  · omega
  · have hne : rs.filter (fun r =>
        decide (r.id = idq ∧ r.row = row ∧ r.colStart ≤ c ∧ c ≤ r.colEnd)) ≠ [] := by
      intro hh
      rw [hh] at hrun
      simp at hrun
    obtain ⟨r, hrm⟩ := List.exists_mem_of_ne_nil _ hne
    have hr2 := List.mem_filter.mp hrm
    have hrprops := hr2.2
    simp only [decide_eq_true_eq] at hrprops
    have hez : es.filter (fun e => decide (e.id = idq ∧ e.row = row ∧ e.col = c)) = [] := by
      apply filter_nil_of_none
      intro e hee hpe2
      simp only [decide_eq_true_eq] at hpe2
      have hcr : r.row ≠ e.row ∨ e.col < r.colStart ∨ r.colEnd < e.col := hx r hr2.1 e hee
      obtain ⟨_, hq2, hq3, hq4⟩ := hrprops
      obtain ⟨_, hp2, hp3⟩ := hpe2
      rcases hcr with hne2 | hlt | hlt
      · exact hne2 (by rw [hq2, hp2])
      · omega
      · omega
    rw [hez]
    simp only [List.length_nil]
    omega

theorem outOk_mono {k k2 : Nat} (hk : k ≤ k2) {nrowI ncolI : Int} {out : BurnOutput}
    (h : outOk k nrowI ncolI out) : outOk k2 nrowI ncolI out := by
  obtain ⟨h1, h2, h3, h4⟩ := h
  refine ⟨fun r hr => ?_, fun e he => ?_, h3, h4⟩
  · obtain ⟨a, b, c2⟩ := h1 r hr
    exact ⟨a, le_trans b (by exact_mod_cast hk), c2⟩
  · obtain ⟨a, b, c2⟩ := h2 e he
    exact ⟨a, le_trans b (by exact_mod_cast hk), c2⟩

theorem burnSlots_outOk (fuel : Nat) (fg : FullGrid) (hc : 0 < fg.ncol) (hr : 0 < fg.nrow) :
    ∀ (slots : List WkbSlot) (k : Nat) (out out2 : BurnOutput),
      burnSlots fuel fg k slots out = some out2 →
      outOk k fg.nrow fg.ncol out →
      outOk (k + slots.length) fg.nrow fg.ncol out2
  | [], k, out, out2, h, hok => by
    rw [burnSlots] at h
    rw [← Option.some.inj h]
    simpa using hok
  | slot :: rest, k, out, out2, h, hok => by
    cases slot with
    | emptyBuf =>
      simp only [burnSlots] at h
      exact outOk_mono (by simp only [List.length_cons]; omega)
        (burnSlots_outOk fuel fg hc hr rest (k + 1) out out2 h (outOk_mono (by omega) hok))
    | badWkb =>
      simp only [burnSlots] at h
      exact outOk_mono (by simp only [List.length_cons]; omega)
        (burnSlots_outOk fuel fg hc hr rest (k + 1) _ out2 h (outOk_mono (by omega) hok))
    | geom b g =>
      cases b with
      | true =>
        simp only [burnSlots] at h
        exact outOk_mono (by simp only [List.length_cons]; omega)
          (burnSlots_outOk fuel fg hc hr rest (k + 1) out out2 h (outOk_mono (by omega) hok))
      | false =>
        simp only [burnSlots] at h
        split at h
        · exact absurd h (by simp)
        · rename_i acc1 thrown heq
          rw [processGeom_prepend fuel fg ((k : Int) + 1) g (out.runs, out.edges)] at heq
          cases hbase : processGeom fuel fg ((k : Int) + 1) ([], []) g with
          | none => rw [hbase] at heq; simp at heq
          | some rb =>
            rw [hbase] at heq
            simp only [Option.map_some'] at heq
            obtain ⟨heq1, heq2⟩ := Prod.mk.inj (Option.some.inj heq)
            have hnew := processGeom_newOk fuel fg ((k : Int) + 1) hc hr g ([], []) rb.1 rb.2
              (by rw [hbase])
            have hnewR : ∀ r ∈ rb.1.1, r.id = (k : Int) + 1 ∧ runInBounds fg.nrow fg.ncol r := by
              intro r hrm
              rcases hnew.1 r hrm with hin | hok2
              · simp at hin
              · exact hok2
            have hnewE : ∀ e ∈ rb.1.2, e.id = (k : Int) + 1 ∧ edgeInBounds fg.nrow fg.ncol e := by
              intro e hem
              rcases hnew.2 e hem with hin | hok2
              · simp at hin
              · exact hok2
            obtain ⟨hk1, hk2, hk3, hk4⟩ := hok
            rw [← heq1] at h
            have hout1 : outOk (k + 1) fg.nrow fg.ncol
                ⟨out.runs ++ rb.1.1, out.edges ++ rb.1.2,
                  if thrown = true then out.warnings ++ [Warning.computeFail ((k : Int) + 1)]
                  else out.warnings⟩ := by
              refine ⟨?_, ?_, ?_, ?_⟩
              · intro r hrm
                rcases List.mem_append.mp hrm with hin | hin
                · obtain ⟨a1, a2, a3⟩ := hk1 r hin
                  exact ⟨a1, by omega, a3⟩
                · obtain ⟨a1, a2⟩ := hnewR r hin
                  refine ⟨?_, ?_, a2⟩ <;> rw [a1] <;> omega
              · intro e hem
                rcases List.mem_append.mp hem with hin | hin
                · obtain ⟨a1, a2, a3⟩ := hk2 e hin
                  exact ⟨a1, by omega, a3⟩
                · obtain ⟨a1, a2⟩ := hnewE e hin
                  refine ⟨?_, ?_, a2⟩ <;> rw [a1] <;> omega
              · show List.Pairwise (fun a b => a.id ≤ b.id) (out.runs ++ rb.1.1)
                rw [List.pairwise_append]
                refine ⟨hk3, ?_, ?_⟩
                · apply pairwise_of_all
                  intro a ha b hb
                  rw [(hnewR a ha).1, (hnewR b hb).1]
                · intro a ha b hb
                  have h1 := (hk1 a ha).2.1
                  rw [(hnewR b hb).1]
                  omega
              · show List.Pairwise (fun (a b : GridEdge) => a.id ≤ b.id) (out.edges ++ rb.1.2)
                rw [List.pairwise_append]
                refine ⟨hk4, ?_, ?_⟩
                · apply pairwise_of_all
                  intro a ha b hb
                  rw [(hnewE a ha).1, (hnewE b hb).1]
                · intro a ha b hb
                  have h1 := (hk2 a ha).2.1
                  rw [(hnewE b hb).1]
                  omega
            exact outOk_mono (by simp only [List.length_cons]; omega)
              (burnSlots_outOk fuel fg hc hr rest (k + 1) _ out2 h hout1)

theorem burnSlots_simpleOk (fuel : Nat) (fg : FullGrid)
    (hc : 0 < fg.ncol) (hr : 0 < fg.nrow) :
    ∀ (slots : List WkbSlot) (k : Nat) (out out2 : BurnOutput),
      burnSlots fuel fg k slots out = some out2 →
      (∀ s ∈ slots, slotSimple s) →
      outOk k fg.nrow fg.ncol out →
      outOkSimple out →
      outOkSimple out2
  | [], k, out, out2, h, _, _, hsm => by
    rw [burnSlots] at h
    rw [← Option.some.inj h]
    exact hsm
  | slot :: rest, k, out, out2, h, hsimple, hok, hsm => by
    have hsrest : ∀ s ∈ rest, slotSimple s :=
      fun s hs => hsimple s (List.mem_cons_of_mem _ hs)
    cases slot with
    | emptyBuf =>
      simp only [burnSlots] at h
      exact burnSlots_simpleOk fuel fg hc hr rest (k + 1) out out2 h hsrest
        (outOk_mono (by omega) hok) hsm
    | badWkb =>
      simp only [burnSlots] at h
      exact burnSlots_simpleOk fuel fg hc hr rest (k + 1) _ out2 h hsrest
        (outOk_mono (by omega) hok) hsm
    | geom b g =>
      cases b with
      | true =>
        simp only [burnSlots] at h
        exact burnSlots_simpleOk fuel fg hc hr rest (k + 1) out out2 h hsrest
          (outOk_mono (by omega) hok) hsm
      | false =>
        simp only [burnSlots] at h
        split at h
        · exact absurd h (by simp)
        · rename_i acc1 thrown heq
          obtain ⟨bl, hacc, hbl⟩ := processGeom_simple_block fuel fg ((k : Int) + 1) hc hr g
            (hsimple _ (List.mem_cons_self _ _)) (out.runs, out.edges) acc1 thrown heq
          rw [hacc] at h
          obtain ⟨hk1, hk2, hk3, hk4⟩ := hok
          obtain ⟨hs1, hs2, hs3⟩ := hsm
          have hblR : ∀ r ∈ bl.1, r.id = (k : Int) + 1 ∧ runInBounds fg.nrow fg.ncol r :=
            fun r hr2 => hbl.1 r hr2
          have hblE : ∀ e ∈ bl.2, e.id = (k : Int) + 1 ∧ edgeInBounds fg.nrow fg.ncol e :=
            fun e he2 => hbl.2.1 e he2
          have hout1 : outOk (k + 1) fg.nrow fg.ncol
              ⟨out.runs ++ bl.1, out.edges ++ bl.2,
                if thrown = true then out.warnings ++ [Warning.computeFail ((k : Int) + 1)]
                else out.warnings⟩ := by
            refine ⟨?_, ?_, ?_, ?_⟩
            · intro r hrm
              rcases List.mem_append.mp hrm with hin | hin
              · obtain ⟨a1, a2, a3⟩ := hk1 r hin
                exact ⟨a1, by omega, a3⟩
              · obtain ⟨a1, a2⟩ := hblR r hin
                refine ⟨?_, ?_, a2⟩ <;> rw [a1] <;> omega
            · intro e hem
              rcases List.mem_append.mp hem with hin | hin
              · obtain ⟨a1, a2, a3⟩ := hk2 e hin
                exact ⟨a1, by omega, a3⟩
              · obtain ⟨a1, a2⟩ := hblE e hin
                refine ⟨?_, ?_, a2⟩ <;> rw [a1] <;> omega
            · show List.Pairwise (fun a b => a.id ≤ b.id) (out.runs ++ bl.1)
              rw [List.pairwise_append]
              refine ⟨hk3, ?_, ?_⟩
              · apply pairwise_of_all
                intro a ha b hb
                rw [(hblR a ha).1, (hblR b hb).1]
              · intro a ha b hb
                have h1 := (hk1 a ha).2.1
                rw [(hblR b hb).1]
                omega
            · show List.Pairwise (fun (a b : GridEdge) => a.id ≤ b.id) (out.edges ++ bl.2)
              rw [List.pairwise_append]
              refine ⟨hk4, ?_, ?_⟩
              · apply pairwise_of_all
                intro a ha b hb
                rw [(hblE a ha).1, (hblE b hb).1]
              · intro a ha b hb
                have h1 := (hk2 a ha).2.1
                rw [(hblE b hb).1]
                omega
          have hsm1 : outOkSimple
              ⟨out.runs ++ bl.1, out.edges ++ bl.2,
                if thrown = true then out.warnings ++ [Warning.computeFail ((k : Int) + 1)]
                else out.warnings⟩ := by
            refine ⟨?_, ?_, ?_⟩
            · show List.Pairwise runGrpLt (out.runs ++ bl.1)
              rw [List.pairwise_append]
              refine ⟨hs1, ?_, ?_⟩
              · refine List.Pairwise.imp_of_mem ?_ hbl.2.2.1
                intro a b ha hb hord
                exact Or.inr ⟨by rw [(hblR a ha).1, (hblR b hb).1], hord⟩
              · intro a ha b hb
                have h1 := (hk1 a ha).2.1
                exact Or.inl (by rw [(hblR b hb).1]; omega)
            · show List.Pairwise edgeGrpLt (out.edges ++ bl.2)
              rw [List.pairwise_append]
              refine ⟨hs2, ?_, ?_⟩
              · refine List.Pairwise.imp_of_mem ?_ hbl.2.2.2.1
                intro a b ha hb hord
                exact Or.inr ⟨by rw [(hblE a ha).1, (hblE b hb).1], hord⟩
              · intro a ha b hb
                have h1 := (hk2 a ha).2.1
                exact Or.inl (by rw [(hblE b hb).1]; omega)
            · intro idq row c
              have hdec : coverCount
                  ⟨out.runs ++ bl.1, out.edges ++ bl.2,
                    if thrown = true then
                      out.warnings ++ [Warning.computeFail ((k : Int) + 1)]
                    else out.warnings⟩ idq row c =
                  coverCount out idq row c +
                  ((bl.1.filter (fun r => decide (r.id = idq ∧ r.row = row ∧
                      r.colStart ≤ c ∧ c ≤ r.colEnd))).length +
                   (bl.2.filter (fun e => decide (e.id = idq ∧ e.row = row ∧
                      e.col = c))).length) := by
                simp only [coverCount, List.filter_append, List.length_append]
                omega
              rw [hdec]
              by_cases hq : idq = (k : Int) + 1
              · have hold1 : out.runs.filter (fun r => decide (r.id = idq ∧ r.row = row ∧
                    r.colStart ≤ c ∧ c ≤ r.colEnd)) = [] := by
                  apply filter_nil_of_none
                  intro r hr2 hp
                  simp only [decide_eq_true_eq] at hp
                  have h1 := (hk1 r hr2).2.1
                  rw [hq] at hp
                  omega
                have hold2 : out.edges.filter (fun e => decide (e.id = idq ∧ e.row = row ∧
                    e.col = c)) = [] := by
                  apply filter_nil_of_none
                  intro e he2 hp
                  simp only [decide_eq_true_eq] at hp
                  have h1 := (hk2 e he2).2.1
                  rw [hq] at hp
                  omega
                have hcnt := blockOk_count ((k : Int) + 1) fg.nrow fg.ncol bl.1 bl.2 hbl idq row c
                simp only [coverCount, hold1, hold2, List.length_nil]
                omega
              · have hbl1 : bl.1.filter (fun r => decide (r.id = idq ∧ r.row = row ∧
                    r.colStart ≤ c ∧ c ≤ r.colEnd)) = [] := by
                  apply filter_nil_of_none
                  intro r hr2 hp
                  simp only [decide_eq_true_eq] at hp
                  exact hq (hp.1 ▸ (hblR r hr2).1)
                have hbl2 : bl.2.filter (fun e => decide (e.id = idq ∧ e.row = row ∧
                    e.col = c)) = [] := by
                  apply filter_nil_of_none
                  intro e he2 hp
                  simp only [decide_eq_true_eq] at hp
                  exact hq (hp.1 ▸ (hblE e he2).1)
                have hcnt := hs3 idq row c
                rw [hbl1, hbl2]
                simp only [List.length_nil]
                omega
          exact burnSlots_simpleOk fuel fg hc hr rest (k + 1) _ out2 h hsrest hout1 hsm1

/-- C5: for every input that `cpp_scanline_burn` accepts (it stops on an
invalid extent or nonpositive dimensions), every emitted record satisfies
`1 ≤ row ≤ nrow` and `1 ≤ col ≤ ncol` (for runs `1 ≤ col_start ≤ col_end ≤
ncol`), and every emitted edge weight lies strictly in `(0, 1)`: padding
rows are discarded entirely and padding columns, which carry winding only,
never themselves produce a run or edge cell outside the grid. -/
theorem scanlineBurn_bounds (fuel : Nat) (slots : List WkbSlot)
    (xmin ymin xmax ymax : ℚ) (ncol nrow : Int) (out : BurnOutput)
    (hout : scanlineBurn fuel slots xmin ymin xmax ymax ncol nrow = some out) :
    (∀ r ∈ out.runs, runInBounds nrow ncol r) ∧
    (∀ e ∈ out.edges, edgeInBounds nrow ncol e) := by
  rw [scanlineBurn] at hout
  split_ifs at hout with h1 h2
  dsimp only [] at hout
  have hok := burnSlots_outOk fuel
    ⟨xmin, ymin, xmax, ymax, (xmax - xmin) / (ncol : ℚ), (ymax - ymin) / (nrow : ℚ),
      ncol, nrow⟩
    (by show (0 : Int) < ncol; omega) (by show (0 : Int) < nrow; omega)
    slots 0 ⟨[], [], []⟩ out hout
    (by refine ⟨?_, ?_, ?_, ?_⟩ <;> simp)
  exact ⟨fun r hr => (hok.1 r hr).2.2, fun e he => (hok.2.1 e he).2.2⟩

/-- Witness for C5 at a one-slot single-POLYGON input on a 1-by-1 grid. -/
theorem scanlineBurn_bounds_witness :
    (scanlineBurn 40 [WkbSlot.geom false sqPoly] 0 0 3 3 1 1 =
      some ⟨[], [⟨1, 1, 1/9, 1⟩], []⟩) ∧
    ((∀ r ∈ (⟨[], [⟨1, 1, 1/9, 1⟩], []⟩ : BurnOutput).runs, runInBounds 1 1 r) ∧
     (∀ e ∈ (⟨[], [⟨1, 1, 1/9, 1⟩], []⟩ : BurnOutput).edges, edgeInBounds 1 1 e)) :=
  ⟨scanEval_single,
    scanlineBurn_bounds 40 [WkbSlot.geom false sqPoly] 0 0 3 3 1 1
      ⟨[], [⟨1, 1, 1/9, 1⟩], []⟩ scanEval_single⟩

/-- C6 (amended): for inputs whose geometries are all single POLYGONs, no
grid cell is covered twice under one id and row — by two runs, two edges,
or a run and an edge: every cell is covered by at most one output record
of a fixed id and row. -/
theorem scanlineBurn_fixed_id_row_disjoint (fuel : Nat) (slots : List WkbSlot)
    (xmin ymin xmax ymax : ℚ) (ncol nrow : Int) (out : BurnOutput)
    (hsimple : ∀ s ∈ slots, slotSimple s)
    (hout : scanlineBurn fuel slots xmin ymin xmax ymax ncol nrow = some out)
    (id row c : Int) : coverCount out id row c ≤ 1 := by
  rw [scanlineBurn] at hout
  split_ifs at hout with h1 h2
  dsimp only [] at hout
  have hsm := burnSlots_simpleOk fuel
    ⟨xmin, ymin, xmax, ymax, (xmax - xmin) / (ncol : ℚ), (ymax - ymin) / (nrow : ℚ),
      ncol, nrow⟩
    (by show (0 : Int) < ncol; omega) (by show (0 : Int) < nrow; omega)
    slots 0 ⟨[], [], []⟩ out hout hsimple
    (by refine ⟨?_, ?_, ?_, ?_⟩ <;> simp)
    (by refine ⟨by simp, by simp, ?_⟩; intro id2 row2 c2; simp [coverCount])
  exact hsm.2.2 id row c

/-- Witness for C6 at a one-slot single-POLYGON input: the single edge cell
(1,1) of polygon 1 is covered exactly once. -/
theorem scanlineBurn_fixed_id_row_disjoint_witness :
    (∀ s ∈ [WkbSlot.geom false sqPoly], slotSimple s) ∧
    (scanlineBurn 40 [WkbSlot.geom false sqPoly] 0 0 3 3 1 1 =
      some ⟨[], [⟨1, 1, 1/9, 1⟩], []⟩) ∧
    coverCount ⟨[], [⟨1, 1, 1/9, 1⟩], []⟩ 1 1 1 ≤ 1 := by
  have hsimple : ∀ s ∈ [WkbSlot.geom false sqPoly], slotSimple s := by
    intro s hs
    simp only [List.mem_singleton] at hs
    rw [hs]
    simp [slotSimple, sqPoly]
  exact ⟨hsimple, scanEval_single,
    scanlineBurn_fixed_id_row_disjoint 40 [WkbSlot.geom false sqPoly] 0 0 3 3 1 1
      ⟨[], [⟨1, 1, 1/9, 1⟩], []⟩ hsimple scanEval_single 1 1 1⟩

/-- C7 (amended): outputs are grouped by geometry id in input order — the
ids along the run table and along the edge table are non-decreasing — and
when every input geometry is a single POLYGON the tables are additionally
ordered within each id by increasing row and, within one row, by strictly
increasing disjoint column ranges. -/
theorem scanlineBurn_output_order (fuel : Nat) (slots : List WkbSlot)
    (xmin ymin xmax ymax : ℚ) (ncol nrow : Int) (out : BurnOutput)
    (hout : scanlineBurn fuel slots xmin ymin xmax ymax ncol nrow = some out) :
    List.Pairwise (fun a b => a.id ≤ b.id) out.runs ∧
    List.Pairwise (fun (a b : GridEdge) => a.id ≤ b.id) out.edges ∧
    ((∀ s ∈ slots, slotSimple s) →
      List.Pairwise runGrpLt out.runs ∧ List.Pairwise edgeGrpLt out.edges) := by
  rw [scanlineBurn] at hout
  split_ifs at hout with h1 h2
  dsimp only [] at hout
  have hok := burnSlots_outOk fuel
    ⟨xmin, ymin, xmax, ymax, (xmax - xmin) / (ncol : ℚ), (ymax - ymin) / (nrow : ℚ),
      ncol, nrow⟩
    (by show (0 : Int) < ncol; omega) (by show (0 : Int) < nrow; omega)
    slots 0 ⟨[], [], []⟩ out hout
    (by refine ⟨?_, ?_, ?_, ?_⟩ <;> simp)
  refine ⟨hok.2.2.1, hok.2.2.2, fun hsimple => ?_⟩
  have hsm := burnSlots_simpleOk fuel
    ⟨xmin, ymin, xmax, ymax, (xmax - xmin) / (ncol : ℚ), (ymax - ymin) / (nrow : ℚ),
      ncol, nrow⟩
    (by show (0 : Int) < ncol; omega) (by show (0 : Int) < nrow; omega)
    slots 0 ⟨[], [], []⟩ out hout hsimple
    (by refine ⟨?_, ?_, ?_, ?_⟩ <;> simp)
    (by refine ⟨by simp, by simp, ?_⟩; intro id2 row2 c2; simp [coverCount])
  exact ⟨hsm.1, hsm.2.1⟩

/-- Witness for C7 at a one-slot single-POLYGON input. -/
theorem scanlineBurn_output_order_witness :
    (scanlineBurn 40 [WkbSlot.geom false sqPoly] 0 0 3 3 1 1 =
      some ⟨[], [⟨1, 1, 1/9, 1⟩], []⟩) ∧
    (List.Pairwise (fun a b => a.id ≤ b.id)
        (⟨[], [⟨1, 1, 1/9, 1⟩], []⟩ : BurnOutput).runs ∧
     List.Pairwise (fun (a b : GridEdge) => a.id ≤ b.id)
        (⟨[], [⟨1, 1, 1/9, 1⟩], []⟩ : BurnOutput).edges ∧
     ((∀ s ∈ [WkbSlot.geom false sqPoly], slotSimple s) →
       List.Pairwise runGrpLt (⟨[], [⟨1, 1, 1/9, 1⟩], []⟩ : BurnOutput).runs ∧
       List.Pairwise edgeGrpLt (⟨[], [⟨1, 1, 1/9, 1⟩], []⟩ : BurnOutput).edges)) :=
  ⟨scanEval_single,
    scanlineBurn_output_order 40 [WkbSlot.geom false sqPoly] 0 0 3 3 1 1
      ⟨[], [⟨1, 1, 1/9, 1⟩], []⟩ scanEval_single⟩

end ControlledBurn
